import Mathlib

/-!
Verification of the `vigil` behavioural-verification core.

A shallow embedding of `src/core/backend.py`, `src/core/engine.py`,
`src/core/check.py`, `src/core/variation.py` and `src/core/__types__.py`.

Modelling conventions:
* Python dicts become association lists `List (String × α)`; dict assignment
  (`d[k] = v`) becomes `setKey`, `dict.update` becomes `dictUpdate`, and
  `d[k]` / `d.get(k)` become `lookupKey`.
* Python values that may be `None` become `Option`; a `TypedDict` field that
  may be absent, and whose value may itself be `None`, becomes
  `Option (Option _)` (outer: key presence, inner: value `None`-ness).
* Fallible code returns `Except`; the backend's abstract `compute` is a
  parameter `compute : Inp → Config Val → Except Err (Option Out)`.
* Observable side effects (`update_environment` calls, `compute` calls, and
  the cleanup flags each `Backend.run` call receives) are recorded in an
  explicit event trace `List (BEvent ...)`, and mutable state is threaded
  explicitly as a `Backend` record.
* `deepcopy` is the identity under value semantics and is dropped.
-/

/-- Severity levels of `Check.Severity` (`src/core/check.py`):
INFO = 0, PASS = 1, WARN = 2, FAIL = 3. -/
inductive Severity where
  | info
  | pass
  | warn
  | fail
deriving DecidableEq, Repr

/-- The numeric value of a severity (`Severity.value` in the source enum). -/
def Severity.value : Severity → Nat
  | .info => 0
  | .pass => 1
  | .warn => 2
  | .fail => 3

/-- `Severity.label`: the lowercase name. -/
def Severity.label : Severity → String
  | .info => "info"
  | .pass => "pass"
  | .warn => "warn"
  | .fail => "fail"

/-- `Severity.merge`: `max(severities, key=lambda s: s.value)` for a non-empty
list (Python `max` keeps the first element among ties), `INFO` for `[]`. -/
def Severity.merge : List Severity → Severity
  | [] => .info
  | s :: rest => rest.foldl (fun a b => if a.value < b.value then b else a) s

/-- A Python `dict[str, α]` as an association list in insertion order. -/
abbrev Config (Val : Type) := List (String × Val)

/-- Python dict assignment `d[k] = v`: replace in place if the key exists,
otherwise append at the end. -/
def setKey {α : Type} : List (String × α) → String → α → List (String × α)
  | [], k, v => [(k, v)]
  | (k', v') :: rest, k, v =>
    if k' = k then (k, v) :: rest else (k', v') :: setKey rest k v

/-- Python `d.get(k)` / `d[k]` lookup: first (unique, for a dict) match. -/
def lookupKey {α : Type} : List (String × α) → String → Option α
  | [], _ => none
  | (k', v) :: rest, k => if k' = k then some v else lookupKey rest k

/-- Python `cfg.update(upd)`: assign every key of `upd`, in order, into `cfg`
(shallow key overwrite). -/
def dictUpdate {Val : Type} (cfg upd : Config Val) : Config Val :=
  upd.foldl (fun acc kv => setKey acc kv.1 kv.2) cfg

/-- An `Input` record (`src/core/__types__.py`): `id`, `data`, and the
optional `reference` key whose value may itself be Python `None`. -/
structure Input (Inp Out : Type) where
  id : String
  data : Inp
  reference : Option (Option Out) := none

/-- The state of a `Backend` (`src/core/backend.py`): base and current
environment and function configuration. -/
structure Backend (Val : Type) where
  base_environment : Config Val
  base_function : Config Val
  environment : Config Val
  function : Config Val

/-- Observable backend events: an `update_environment` call on the underlying
system, a `compute` call (with the function configuration it received and its
result), and a `Backend.run` entry recording the cleanup flags it was passed. -/
inductive BEvent (Val Inp Out Err : Type) where
  | update_environment (environment : Config Val)
  | compute (input : Inp) (function : Config Val) (result : Except Err (Option Out))
  | run_call (input : Inp) (cleanup_env cleanup_fn : Bool)

/-- `Backend.__init__`: base and current copies coincide and the base
environment is applied eagerly via `update_environment`. -/
def Backend.init {Val Inp Out Err : Type} (environment function : Config Val) :
    Backend Val × List (BEvent Val Inp Out Err) :=
  ({ base_environment := environment, base_function := function,
     environment := environment, function := function },
   [.update_environment environment])

/-- `Backend.set_function`: merge into a copy of the current function
configuration; no `update_environment` call. -/
def Backend.set_function {Val Inp Out Err : Type} (b : Backend Val)
    (function : Config Val) : Backend Val × List (BEvent Val Inp Out Err) :=
  ({ b with function := dictUpdate b.function function }, [])

/-- `Backend.set_environment`: merge into a copy of the current environment and
apply it immediately via `update_environment`. -/
def Backend.set_environment {Val Inp Out Err : Type} (b : Backend Val)
    (environment : Config Val) : Backend Val × List (BEvent Val Inp Out Err) :=
  let cfg := dictUpdate b.environment environment
  ({ b with environment := cfg }, [.update_environment cfg])

/-- `Backend.run`: execute `compute(deepcopy(input), deepcopy(self.function))`
and, in a `finally` block (hence on success and on failure alike), restore the
function configuration when `cleanup_fn` and the environment (with a fresh
`update_environment` call) when `cleanup_env`; the `compute` result — value or
propagating error — is returned unchanged after cleanup. -/
def Backend.run {Val Inp Out Err : Type}
    (compute : Inp → Config Val → Except Err (Option Out)) (b : Backend Val)
    (input : Inp) (cleanup_env cleanup_fn : Bool) :
    Except Err (Option Out) × Backend Val × List (BEvent Val Inp Out Err) :=
  let result := compute input b.function
  let b1 := if cleanup_fn then { b with function := b.base_function } else b
  let b2 := if cleanup_env then { b1 with environment := b1.base_environment } else b1
  (result, b2,
    [.run_call input cleanup_env cleanup_fn, .compute input b.function result]
      ++ (if cleanup_env then [.update_environment b1.base_environment] else []))

/-- `Backend.reset`: unconditionally restore both configurations to base and
reapply the environment. -/
def Backend.reset {Val Inp Out Err : Type} (b : Backend Val) :
    Backend Val × List (BEvent Val Inp Out Err) :=
  ({ b with function := b.base_function, environment := b.base_environment },
   [.update_environment b.base_environment])

/-- `Variation.Intent` (`src/core/variation.py`). -/
inductive VIntent where
  | input
  | function
  | environment
deriving DecidableEq, Repr

/-- The closed variation model of `src/core/variation.py`: `InputVariation`,
`FunctionVariation` and `EnvironmentVariation`, each carrying its overridable
`vary` (which may "mutate in place and return None" — modelled as returning
`none` — or return a new value), plus the concrete subclass name and Python
object hash used for slice identity. -/
inductive Variation (Inp Out Val : Type) where
  | input (name : String) (vhash : Int)
      (vary : List (Input Inp Out) → Option (List (Input Inp Out)))
  | function (name : String) (vhash : Int) (vary : Config Val → Option (Config Val))
  | environment (name : String) (vhash : Int) (vary : Config Val → Option (Config Val))

/-- The `intent` class attribute of each variation subclass. -/
def Variation.intent {Inp Out Val : Type} : Variation Inp Out Val → VIntent
  | .input .. => .input
  | .function .. => .function
  | .environment .. => .environment

/-- The `name` property (concrete subclass name). -/
def Variation.name {Inp Out Val : Type} : Variation Inp Out Val → String
  | .input n .. => n
  | .function n .. => n
  | .environment n .. => n

/-- The Python `hash(variation)` used in slice ids. -/
def Variation.vhash {Inp Out Val : Type} : Variation Inp Out Val → Int
  | .input _ h _ => h
  | .function _ h _ => h
  | .environment _ h _ => h

/-- `Variation.apply`: an INPUT variation transforms a deep copy of the inputs
and leaves the backend untouched; a FUNCTION variation varies a copy of the
current function configuration and calls `backend.set_function`; an
ENVIRONMENT variation does the same over the environment via
`backend.set_environment`. FUNCTION/ENVIRONMENT variations pass the inputs
through unchanged. -/
def Variation.apply {Inp Out Val Err : Type} :
    Variation Inp Out Val → List (Input Inp Out) → Backend Val →
      List (Input Inp Out) × Backend Val × List (BEvent Val Inp Out Err)
  | .input _ _ vary, inputs, b => ((vary inputs).getD inputs, b, [])
  | .function _ _ vary, inputs, b =>
    let copied := b.function
    let (b', evs) := b.set_function ((vary copied).getD copied)
    (inputs, b', evs)
  | .environment _ _ vary, inputs, b =>
    let copied := b.environment
    let (b', evs) := b.set_environment ((vary copied).getD copied)
    (inputs, b', evs)

/-- A `Slice` (`src/core/__types__.py`): the record of one backend execution
(or reference capture). The real-time `timestamp` field is omitted. -/
structure Slice (Inp Out Val : Type) where
  input : Input Inp Out
  output : Option Out
  function : Config Val
  environment : Config Val
  variation : Option (Variation Inp Out Val)
  meta : List (String × String) := []

/-- `Slice.input_id`. -/
def Slice.input_id {Inp Out Val : Type} (s : Slice Inp Out Val) : String :=
  s.input.id

/-- The derived `Slice.id`. -/
def Slice.id {Inp Out Val : Type} (s : Slice Inp Out Val) : String :=
  match s.variation with
  | none => "input-" ++ s.input_id ++ "-reference"
  | some v =>
    "input-" ++ s.input_id ++ "-variation-" ++ v.name ++ "-" ++ toString v.vhash

/-- The body of the loop in `Engine._build_references`: build one reference
slice for one input. `input.get("reference")` yields `None` both when the key
is absent and when it holds `None` (`Option.getD _ none`); when that value is
non-`None` it becomes the output (`meta.source = "provided"`) with no backend
call, otherwise the backend runs with both cleanup flags set
(`meta.source = "executed"`). Snapshots are taken before the choice. -/
def buildRefSlice {Val Inp Out Err : Type}
    (compute : Inp → Config Val → Except Err (Option Out)) (b : Backend Val)
    (input : Input Inp Out) :
    Except Err (Slice Inp Out Val) × Backend Val × List (BEvent Val Inp Out Err) :=
  let reference_output : Option Out := input.reference.getD none
  let function_snapshot := b.function
  let environment_snapshot := b.environment
  match reference_output with
  | some v =>
    (.ok { input := input, output := some v, function := function_snapshot,
           environment := environment_snapshot, variation := none,
           meta := [("source", "provided")] }, b, [])
  | none =>
    match b.run compute input.data true true with
    | (.error e, b', evs) => (.error e, b', evs)
    | (.ok out, b', evs) =>
      (.ok { input := input, output := out, function := function_snapshot,
             environment := environment_snapshot, variation := none,
             meta := [("source", "executed")] }, b', evs)

/-- `Engine._build_references`, with the dict `references` threaded as the
accumulator (later inputs with a duplicate id overwrite earlier entries, as
dict assignment does). A backend error propagates immediately. -/
def build_references_aux {Val Inp Out Err : Type}
    (compute : Inp → Config Val → Except Err (Option Out)) :
    Backend Val → List (String × Slice Inp Out Val) → List (Input Inp Out) →
      Except Err (List (String × Slice Inp Out Val)) × Backend Val ×
        List (BEvent Val Inp Out Err)
  | b, acc, [] => (.ok acc, b, [])
  | b, acc, input :: rest =>
    match buildRefSlice compute b input with
    | (.error e, b', evs) => (.error e, b', evs)
    | (.ok slice, b', evs) =>
      match build_references_aux compute b' (setKey acc input.id slice) rest with
      | (.error e, b'', evs') => (.error e, b'', evs ++ evs')
      | (.ok refs, b'', evs') => (.ok refs, b'', evs ++ evs')

/-- `Engine._build_references` entry point: empty map, inputs in order. -/
def build_references {Val Inp Out Err : Type}
    (compute : Inp → Config Val → Except Err (Option Out)) (b : Backend Val)
    (inputs : List (Input Inp Out)) :
    Except Err (List (String × Slice Inp Out Val)) × Backend Val ×
      List (BEvent Val Inp Out Err) :=
  build_references_aux compute b [] inputs

/-- The indexed loop of `Engine._run_variation`: `is_last_input` is
`input_index == total_inputs - 1`, `cleanup_function` is
`is_last_input and intent == FUNCTION`, `cleanup_environment` is
`is_last_input and intent == ENVIRONMENT`; snapshots are captured before each
`backend.run` call and stored in the slice together with the variation. -/
def run_variation_aux {Val Inp Out Err : Type}
    (compute : Inp → Config Val → Except Err (Option Out))
    (variation : Option (Variation Inp Out Val)) (total_inputs : Nat) :
    Backend Val → Nat → List (Input Inp Out) →
      Except Err (List (Slice Inp Out Val)) × Backend Val ×
        List (BEvent Val Inp Out Err)
  | b, _, [] => (.ok [], b, [])
  | b, input_index, input :: rest =>
    let intent := variation.map Variation.intent
    let is_last_input := decide (input_index = total_inputs - 1)
    let cleanup_function := is_last_input && decide (intent = some .function)
    let cleanup_environment := is_last_input && decide (intent = some .environment)
    let function_snapshot := b.function
    let environment_snapshot := b.environment
    match b.run compute input.data cleanup_environment cleanup_function with
    | (.error e, b', evs) => (.error e, b', evs)
    | (.ok out, b', evs) =>
      let slice : Slice Inp Out Val :=
        { input := input, output := out, function := function_snapshot,
          environment := environment_snapshot, variation := variation }
      match run_variation_aux compute variation total_inputs b' (input_index + 1) rest with
      | (.error e, b'', evs') => (.error e, b'', evs ++ evs')
      | (.ok slices, b'', evs') => (.ok (slice :: slices), b'', evs ++ evs')

/-- `Engine._run_variation`. -/
def run_variation {Val Inp Out Err : Type}
    (compute : Inp → Config Val → Except Err (Option Out)) (b : Backend Val)
    (inputs : List (Input Inp Out)) (variation : Option (Variation Inp Out Val)) :
    Except Err (List (Slice Inp Out Val)) × Backend Val ×
      List (BEvent Val Inp Out Err) :=
  run_variation_aux compute variation inputs.length b 0 inputs

/-- The variation loop of `Engine.run`: for each (nullable) variation, apply
it (`applied_inputs = inputs` when null), run the batch, and accumulate the
slices; the first backend error aborts the run. -/
def run_variations {Val Inp Out Err : Type}
    (compute : Inp → Config Val → Except Err (Option Out))
    (inputs : List (Input Inp Out)) :
    Backend Val → List (Option (Variation Inp Out Val)) →
      Except Err (List (Slice Inp Out Val)) × Backend Val ×
        List (BEvent Val Inp Out Err)
  | b, [] => (.ok [], b, [])
  | b, variation :: rest =>
    let step :
        List (Input Inp Out) × Backend Val × List (BEvent Val Inp Out Err) :=
      match variation with
      | none => (inputs, b, [])
      | some v => v.apply inputs b
    match step with
    | (applied_inputs, b1, evs0) =>
      match run_variation compute b1 applied_inputs variation with
      | (.error e, b2, evs) => (.error e, b2, evs0 ++ evs)
      | (.ok slices, b2, evs) =>
        match run_variations compute inputs b2 rest with
        | (.error e, b3, evs') => (.error e, b3, evs0 ++ evs ++ evs')
        | (.ok slices', b3, evs') => (.ok (slices ++ slices'), b3, evs0 ++ evs ++ evs')

/-- `Check.Intent` (`src/core/check.py`). -/
inductive CIntent where
  | unary
  | reference
  | group
deriving DecidableEq, Repr

/-- The `ValueError`s raised by the check base classes: empty slice list,
mismatched slice/reference counts, misaligned slice/reference input ids. -/
inductive CheckErr where
  | empty_slices (intent : CIntent)
  | count_mismatch (n m : Nat)
  | alignment (a b : String)
deriving DecidableEq, Repr

/-- The closed check model of `src/core/check.py`: `UnaryCheck`,
`ReferenceCheck` and `GroupCheck`, each carrying its concrete `check` method
and subclass name. -/
inductive CheckSpec (Inp Out Val Ann : Type) where
  | unary (name : String) (c : Slice Inp Out Val → Severity × Ann)
  | reference (name : String) (c : Slice Inp Out Val → Slice Inp Out Val → Severity × Ann)
  | group (name : String) (c : List (Slice Inp Out Val) → Severity × Ann)

/-- The `intent` class attribute of each check subclass. -/
def CheckSpec.intent {Inp Out Val Ann : Type} : CheckSpec Inp Out Val Ann → CIntent
  | .unary .. => .unary
  | .reference .. => .reference
  | .group .. => .group

/-- The `name` property (concrete subclass name). -/
def CheckSpec.cname {Inp Out Val Ann : Type} : CheckSpec Inp Out Val Ann → String
  | .unary n _ => n
  | .reference n _ => n
  | .group n _ => n

/-- `UnaryCheck.evaluate`: raise on zero slices; otherwise apply `check` to
each slice, collecting severities and building the result dict keyed by
`slice.id` with the severity label alongside the annotation. -/
def unary_evaluate {Inp Out Val Ann : Type}
    (c : Slice Inp Out Val → Severity × Ann) (slices : List (Slice Inp Out Val)) :
    Except CheckErr (Severity × List (String × String × Ann)) :=
  match slices with
  | [] => .error (.empty_slices .unary)
  | _ =>
    let step := fun (acc : List Severity × List (String × String × Ann))
        (s : Slice Inp Out Val) =>
      let (severity, annotation) := c s
      (acc.1 ++ [severity], setKey acc.2 s.id (severity.label, annotation))
    let (severities, result) := slices.foldl step ([], [])
    .ok (Severity.merge severities, result)

/-- The pairwise loop of `ReferenceCheck.evaluate` over `zip(slices,
references)`: raise on the first misaligned pair (`input_id` mismatch),
otherwise collect `(severity, slice.id, annotation)` per pair. -/
def reference_pairs {Inp Out Val Ann : Type}
    (c : Slice Inp Out Val → Slice Inp Out Val → Severity × Ann) :
    List (Slice Inp Out Val × Slice Inp Out Val) →
      Except CheckErr (List (Severity × String × Ann))
  | [] => .ok []
  | (s, r) :: rest =>
    if s.input_id ≠ r.input_id then .error (.alignment s.input_id r.input_id)
    else
      let (severity, annotation) := c s r
      match reference_pairs c rest with
      | .error e => .error e
      | .ok tail => .ok ((severity, s.id, annotation) :: tail)

/-- `ReferenceCheck.evaluate`: raise on zero slices, then on a count mismatch
(before any pairwise comparison), then run the aligned pairwise loop, merging
severities and keying the result dict by `slice.id`. -/
def reference_evaluate {Inp Out Val Ann : Type}
    (c : Slice Inp Out Val → Slice Inp Out Val → Severity × Ann)
    (slices references : List (Slice Inp Out Val)) :
    Except CheckErr (Severity × List (String × String × Ann)) :=
  match slices with
  | [] => .error (.empty_slices .reference)
  | _ =>
    if slices.length ≠ references.length then
      .error (.count_mismatch slices.length references.length)
    else
      match reference_pairs c (slices.zip references) with
      | .error e => .error e
      | .ok entries =>
        .ok (Severity.merge (entries.map (·.1)),
          entries.foldl (fun acc e => setKey acc e.2.1 (e.1.label, e.2.2)) [])

/-- `groups.setdefault(str(s.input_id), []).append(s)`: append to the existing
group in place, or add a new group at the end. -/
def insertGroup {Inp Out Val : Type} (groups : List (String × List (Slice Inp Out Val)))
    (k : String) (s : Slice Inp Out Val) : List (String × List (Slice Inp Out Val)) :=
  match groups with
  | [] => [(k, [s])]
  | (k', g) :: rest =>
    if k' = k then (k', g ++ [s]) :: rest else (k', g) :: insertGroup rest k s

/-- The grouping loop of `GroupCheck.evaluate`: partition slices by
`input_id`, keys in order of first appearance, slice order preserved within
each group. -/
def groupSlices {Inp Out Val : Type} (slices : List (Slice Inp Out Val)) :
    List (String × List (Slice Inp Out Val)) :=
  slices.foldl (fun gs s => insertGroup gs s.input_id s) []

/-- The result shape of `GroupCheck.evaluate`:
`{groups, n_groups, skipped, n_skipped}`. -/
structure GroupResult (Ann : Type) where
  groups : List (String × String × Ann)
  n_groups : Nat
  skipped : List String
  n_skipped : Nat
deriving DecidableEq, Repr

/-- The loop body of `GroupCheck.evaluate` over `groups.items()`: a group with
fewer than 2 members is appended to `skipped`; otherwise its `check` result is
appended to the severities and keyed into the results dict. -/
def group_step {Inp Out Val Ann : Type}
    (c : List (Slice Inp Out Val) → Severity × Ann)
    (acc : List Severity × List (String × String × Ann) × List String)
    (g : String × List (Slice Inp Out Val)) :
    List Severity × List (String × String × Ann) × List String :=
  if g.2.length < 2 then (acc.1, acc.2.1, acc.2.2 ++ [g.1])
  else
    let (severity, annotation) := c g.2
    (acc.1 ++ [severity], setKey acc.2.1 g.1 (severity.label, annotation), acc.2.2)

/-- `GroupCheck.evaluate`: raise on zero slices; group by `input_id`; skip
groups with fewer than 2 members (recording the input id), evaluate the rest,
merge their severities (`INFO` when none qualified), and return the
`{groups, n_groups, skipped, n_skipped}` result. -/
def group_evaluate {Inp Out Val Ann : Type}
    (c : List (Slice Inp Out Val) → Severity × Ann)
    (slices : List (Slice Inp Out Val)) :
    Except CheckErr (Severity × GroupResult Ann) :=
  match slices with
  | [] => .error (.empty_slices .group)
  | _ =>
    let groups := groupSlices slices
    let (severities, results, skipped) := groups.foldl (group_step c) ([], [], [])
    let merged := if severities.isEmpty then Severity.info else Severity.merge severities
    .ok (merged, { groups := results, n_groups := results.length,
                   skipped := skipped, n_skipped := skipped.length })

/-- `check.evaluate(all_slices, references)` dispatched on the check's class:
unary and group checks ignore `references`. -/
def CheckSpec.evaluate {Inp Out Val Ann : Type} (check : CheckSpec Inp Out Val Ann)
    (slices references : List (Slice Inp Out Val)) :
    Except CheckErr (Severity × GroupResult Ann ⊕ Severity × List (String × String × Ann)) :=
  match check with
  | .unary _ c =>
    match unary_evaluate c slices with
    | .error e => .error e
    | .ok r => .ok (.inr r)
  | .reference _ c =>
    match reference_evaluate c slices references with
    | .error e => .error e
    | .ok r => .ok (.inr r)
  | .group _ c =>
    match group_evaluate c slices with
    | .error e => .error e
    | .ok r => .ok (.inl r)

/-- Errors surfacing from `Engine.run`: a backend error, a check-raised
`ValueError`, or the `KeyError` of `references_by_input_id[slice.input_id]`. -/
inductive EngineErr (Err : Type) where
  | backend (e : Err)
  | check_failed (name : String) (e : CheckErr)
  | key_error (k : String)

/-- One finished check in the report: check name, merged severity, and the
annotation (per-slice entries, or the group result). -/
abbrev CheckResult (Ann : Type) :=
  String × (Severity × GroupResult Ann ⊕ Severity × List (String × String × Ann))

/-- The reference list construction of `Engine.run`'s check phase:
`[references_by_input_id[slice.input_id] for slice in all_slices]`, raising a
`KeyError` on the first missing id. -/
def lookup_references {Inp Out Val Err : Type}
    (references_by_input_id : List (String × Slice Inp Out Val)) :
    List (Slice Inp Out Val) → Except (EngineErr Err) (List (Slice Inp Out Val))
  | [] => .ok []
  | s :: rest =>
    match lookupKey references_by_input_id s.input_id with
    | none => .error (.key_error s.input_id)
    | some r =>
      match lookup_references references_by_input_id rest with
      | .error e => .error e
      | .ok tail => .ok (r :: tail)

/-- The check loop of `Engine.run`: for each check in order, build the
references list when the check's intent is REFERENCE (else pass `[]`), invoke
`evaluate`, and record `(name, severity, annotation)`; errors propagate. -/
def run_checks {Inp Out Val Err Ann : Type}
    (references_by_input_id : List (String × Slice Inp Out Val))
    (all_slices : List (Slice Inp Out Val)) :
    List (CheckSpec Inp Out Val Ann) → Except (EngineErr Err) (List (CheckResult Ann))
  | [] => .ok []
  | check :: rest =>
    let refsE : Except (EngineErr Err) (List (Slice Inp Out Val)) :=
      if check.intent = .reference then
        lookup_references references_by_input_id all_slices
      else .ok []
    match refsE with
    | .error e => .error e
    | .ok references =>
      match check.evaluate all_slices references with
      | .error e => .error (.check_failed check.cname e)
      | .ok r =>
        match run_checks references_by_input_id all_slices rest with
        | .error e => .error e
        | .ok tail => .ok ((check.cname, r) :: tail)

/-- `Engine.run`: build references once, run every variation pass accumulating
slices, then run every check; returns the report (the list of finished check
results), the final backend state, and the full event trace. -/
def Engine.run {Inp Out Val Err Ann : Type}
    (compute : Inp → Config Val → Except Err (Option Out)) (b : Backend Val)
    (inputs : List (Input Inp Out)) (variations : List (Option (Variation Inp Out Val)))
    (checks : List (CheckSpec Inp Out Val Ann)) :
    Except (EngineErr Err) (List (CheckResult Ann)) × Backend Val ×
      List (BEvent Val Inp Out Err) :=
  match build_references compute b inputs with
  | (.error e, b1, evs1) => (.error (.backend e), b1, evs1)
  | (.ok references_by_input_id, b1, evs1) =>
    match run_variations compute inputs b1 variations with
    | (.error e, b2, evs2) => (.error (.backend e), b2, evs1 ++ evs2)
    | (.ok all_slices, b2, evs2) =>
      match run_checks references_by_input_id all_slices checks with
      | .error e => (.error e, b2, evs1 ++ evs2)
      | .ok report => (.ok report, b2, evs1 ++ evs2)

/-- The key order produced by repeated `dict.setdefault` insertion: each key
in order of first appearance. -/
def dedupFirst : List String → List String
  | [] => []
  | k :: rest => k :: (dedupFirst rest).filter (fun k2 => k2 ≠ k)

/-- The `Backend.run` invocations of a trace: input and the cleanup flags the
call received. -/
def runCalls {Val Inp Out Err : Type} (evs : List (BEvent Val Inp Out Err)) :
    List (Inp × Bool × Bool) :=
  evs.filterMap fun e =>
    match e with
    | .run_call i ce cf => some (i, ce, cf)
    | _ => none

/-- The `compute` invocations of a trace: input and the function configuration
the call received. -/
def computeCalls {Val Inp Out Err : Type} (evs : List (BEvent Val Inp Out Err)) :
    List (Inp × Config Val) :=
  evs.filterMap fun e =>
    match e with
    | .compute i f _ => some (i, f)
    | _ => none

/-! ### Concrete evaluation fixtures -/

/-- A small concrete backend state whose current configuration differs from
its base configuration. -/
def wBackendDirty : Backend Nat :=
  { base_environment := [("e", 0)], base_function := [("f", 0)],
    environment := [("e", 1)], function := [("f", 1)] }

/-- A small concrete backend state in its base configuration. -/
def wBackendClean : Backend Nat :=
  { base_environment := [("e", 0)], base_function := [("f", 0)],
    environment := [("e", 0)], function := [("f", 0)] }

/-- A concrete `compute` that echoes its input. -/
def wComputeOk : Nat → Config Nat → Except String (Option Nat) :=
  fun n _ => .ok (some n)

/-- A concrete `compute` that always raises. -/
def wComputeErr : Nat → Config Nat → Except String (Option Nat) :=
  fun _ _ => .error "boom"

/-- A concrete input without a `reference` key. -/
def wInput (i : String) (n : Nat) : Input Nat Nat :=
  { id := i, data := n }

/-- A concrete reference-free slice fixture. -/
def wSlice (i : String) (n : Nat) : Slice Nat Nat Nat :=
  { input := wInput i n, output := some n, function := [], environment := [],
    variation := none }

/-- A concrete FUNCTION-intent variation setting `f := 1`. -/
def wVarFn : Variation Nat Nat Nat :=
  .function "SetFn" 0 (fun _ => some [("f", 1)])

/-! ### Severity lemmas -/

/-- The binary step of `Severity.merge`: Python `max` keeps the running value
unless the next one is strictly greater. -/
def smax (a b : Severity) : Severity :=
  if a.value < b.value then b else a

theorem smax_self_or (a b : Severity) : smax a b = a ∨ smax a b = b := by
  unfold smax; split
  · exact Or.inr rfl
  · exact Or.inl rfl

theorem value_inj {a b : Severity} (h : a.value = b.value) : a = b := by
  cases a <;> cases b <;> first | rfl | (exact absurd h (by decide))

theorem merge_eq_foldl (l : List Severity) :
    Severity.merge l = l.foldl smax .info := by
  cases l with
  | nil => rfl
  | cons s rest =>
    show rest.foldl smax s = rest.foldl smax (smax .info s)
    have h : smax .info s = s := by cases s <;> rfl
    rw [h]

theorem foldl_smax_mem (l : List Severity) (a : Severity) :
    l.foldl smax a ∈ a :: l := by
  induction l generalizing a with
  | nil => simp [List.foldl]
  | cons b rest ih =>
    have h := ih (smax a b)
    rcases smax_self_or a b with h1 | h1 <;> rw [h1] at h <;>
      simp only [List.foldl_cons, h1] <;>
      rcases List.mem_cons.mp h with h2 | h2 <;> simp [h2]

theorem le_smax_left (a b : Severity) : a.value ≤ (smax a b).value := by
  unfold smax; split
  · omega
  · exact le_refl _

theorem le_smax_right (a b : Severity) : b.value ≤ (smax a b).value := by
  unfold smax; split
  · exact le_refl _
  · omega

theorem le_foldl_smax (l : List Severity) (a : Severity) :
    a.value ≤ (l.foldl smax a).value ∧
      ∀ x ∈ l, x.value ≤ (l.foldl smax a).value := by
  induction l generalizing a with
  | nil => exact ⟨le_refl _, by simp⟩
  | cons b rest ih =>
    refine ⟨le_trans (le_smax_left a b) (ih (smax a b)).1, ?_⟩
    intro x hx
    rcases List.mem_cons.mp hx with rfl | hx
    · exact le_trans (le_smax_right a x) (ih (smax a x)).1
    · exact (ih (smax a b)).2 x hx

theorem merge_mem {l : List Severity} (h : l ≠ []) : Severity.merge l ∈ l := by
  cases l with
  | nil => exact absurd rfl h
  | cons s rest => exact foldl_smax_mem rest s

theorem le_merge {l : List Severity} {x : Severity} (hx : x ∈ l) :
    x.value ≤ (Severity.merge l).value := by
  cases l with
  | nil => simp at hx
  | cons s rest =>
    rcases List.mem_cons.mp hx with rfl | hx
    · exact (le_foldl_smax rest x).1
    · exact (le_foldl_smax rest s).2 x hx

theorem merge_unique {l : List Severity} {a : Severity} (ha : a ∈ l)
    (hmax : ∀ y ∈ l, y.value ≤ a.value) : Severity.merge l = a := by
  have hne : l ≠ [] := by rintro rfl; simp at ha
  exact value_inj (le_antisymm (hmax _ (merge_mem hne)) (le_merge ha))

/-- C7: `Severity.merge` is max-by-ordinal: it returns `INFO` on the empty
list, an element of any non-empty list that bounds every element's ordinal
value from above (in particular `merge [PASS, WARN, FAIL] = FAIL`), it is
invariant under permutation of its argument (commutative), and duplicating an
element leaves the result unchanged (idempotent under duplication). -/
theorem severity_merge_spec :
    Severity.merge [] = Severity.info ∧
    Severity.merge [.pass, .warn, .fail] = Severity.fail ∧
    (∀ l : List Severity, ∀ s ∈ l, s.value ≤ (Severity.merge l).value) ∧
    (∀ l : List Severity, l ≠ [] → Severity.merge l ∈ l) ∧
    (∀ l l' : List Severity, l.Perm l' → Severity.merge l = Severity.merge l') ∧
    (∀ (s : Severity) (l : List Severity),
      Severity.merge (s :: s :: l) = Severity.merge (s :: l)) := by
  refine ⟨rfl, by decide, fun l s hs => le_merge hs, fun l h => merge_mem h, ?_, ?_⟩
  · intro l l' hperm
    cases l with
    | nil => rw [hperm.nil_eq]
    | cons s rest =>
      have hne : (s :: rest) ≠ [] := by simp
      have hmem : Severity.merge (s :: rest) ∈ l' := hperm.mem_iff.mp (merge_mem hne)
      exact (merge_unique hmem (fun y hy => le_merge (hperm.mem_iff.mpr hy))).symm
  · intro s l
    have hmem : Severity.merge (s :: l) ∈ s :: s :: l := by
      rcases List.mem_cons.mp (@merge_mem (s :: l) (by simp)) with h | h
      · simp [h]
      · simp [List.mem_cons.mpr (Or.inr h)]
    refine merge_unique hmem ?_
    intro y hy
    rcases List.mem_cons.mp hy with rfl | hy
    · exact le_merge (by simp)
    · exact le_merge hy

/-- Witness for C7 at concrete inputs. -/
theorem severity_merge_spec_witness :
    Severity.warn.value ≤ (Severity.merge [.pass, .warn]).value ∧
    Severity.merge [.pass, .warn] ∈ [Severity.pass, Severity.warn] ∧
    Severity.merge [.warn, .pass] = Severity.merge [.pass, .warn] ∧
    Severity.merge [.warn, .warn, .pass] = Severity.merge [.warn, .pass] :=
  ⟨severity_merge_spec.2.2.1 [.pass, .warn] .warn (by decide),
   severity_merge_spec.2.2.2.1 [.pass, .warn] (by decide),
   severity_merge_spec.2.2.2.2.1 [.warn, .pass] [.pass, .warn] (by decide),
   severity_merge_spec.2.2.2.2.2 .warn [.pass]⟩

/-! ### Association-list (Python dict) lemmas -/

theorem lookup_eq_none_of_not_mem {α : Type} {l : List (String × α)} {k : String}
    (h : k ∉ l.map Prod.fst) : lookupKey l k = none := by
  induction l with
  | nil => rfl
  | cons kv rest ih =>
    simp only [List.map_cons, List.mem_cons] at h
    push_neg at h
    have hne : ¬ kv.1 = k := fun hk => h.1 hk.symm
    simp [lookupKey, hne, ih h.2]

theorem lookup_setKey {α : Type} (l : List (String × α)) (k : String) (v : α)
    (k' : String) :
    lookupKey (setKey l k v) k' = if k' = k then some v else lookupKey l k' := by
  induction l with
  | nil =>
    by_cases h : k' = k
    · subst h; simp [setKey, lookupKey]
    · have h2 : ¬ k = k' := fun e => h e.symm
      simp [setKey, lookupKey, h, h2]
  | cons kv rest ih =>
    by_cases hk : kv.1 = k
    · subst hk
      by_cases h : k' = kv.1
      · subst h; simp [setKey, lookupKey]
      · have h2 : ¬ kv.1 = k' := fun e => h e.symm
        simp [setKey, lookupKey, h, h2]
    · by_cases h2 : kv.1 = k'
      · have h3 : ¬ k' = k := fun e => hk (h2.trans e)
        simp [setKey, lookupKey, hk, h2, h3]
      · simp [setKey, lookupKey, hk, h2, ih]

theorem lookup_dictUpdate {α : Type} (cfg upd : List (String × α))
    (h : (upd.map Prod.fst).Nodup) (k : String) :
    lookupKey (dictUpdate cfg upd) k = (lookupKey upd k).orElse fun _ => lookupKey cfg k := by
  induction upd generalizing cfg with
  | nil => simp [dictUpdate, lookupKey]
  | cons kv rest ih =>
    simp only [List.map_cons, List.nodup_cons] at h
    have hd : dictUpdate cfg (kv :: rest) = dictUpdate (setKey cfg kv.1 kv.2) rest := rfl
    rw [hd, ih (setKey cfg kv.1 kv.2) h.2]
    by_cases hk : k = kv.1
    · subst hk
      have hrest : lookupKey rest kv.1 = none := lookup_eq_none_of_not_mem h.1
      simp [lookupKey, hrest, lookup_setKey]
    · have hk2 : ¬ kv.1 = k := fun e => hk e.symm
      cases hrk : lookupKey rest k <;>
        simp [lookupKey, hrk, lookup_setKey, hk, hk2]

/-- C4: `Backend.run` cleans up on every exit path: the `compute` result
(value or error) is returned unchanged; when `cleanup_fn` the function
configuration is restored to base (else untouched); when `cleanup_env` the
environment is restored to base and `update_environment` is invoked with it
(else untouched); base configurations never change; and a `compute` error
propagates to the caller while cleanup still runs. -/
theorem backend_run_cleanup_on_every_exit (Val Inp Out Err : Type)
    (compute : Inp → Config Val → Except Err (Option Out)) (b : Backend Val)
    (input : Inp) (cleanup_env cleanup_fn : Bool) :
    (b.run compute input cleanup_env cleanup_fn).1 = compute input b.function ∧
    (cleanup_fn = true →
      (b.run compute input cleanup_env cleanup_fn).2.1.function = b.base_function) ∧
    (cleanup_fn = false →
      (b.run compute input cleanup_env cleanup_fn).2.1.function = b.function) ∧
    (cleanup_env = true →
      (b.run compute input cleanup_env cleanup_fn).2.1.environment = b.base_environment ∧
      BEvent.update_environment b.base_environment ∈
        (b.run compute input cleanup_env cleanup_fn).2.2) ∧
    (cleanup_env = false →
      (b.run compute input cleanup_env cleanup_fn).2.1.environment = b.environment) ∧
    (b.run compute input cleanup_env cleanup_fn).2.1.base_environment = b.base_environment ∧
    (b.run compute input cleanup_env cleanup_fn).2.1.base_function = b.base_function ∧
    (∀ e, compute input b.function = .error e →
      (b.run compute input cleanup_env cleanup_fn).1 = .error e) := by
  cases cleanup_env <;> cases cleanup_fn <;> simp [Backend.run]

/-- Witness for C4: a failing `compute` with both cleanup flags set still
restores both configurations, and the error propagates. -/
theorem backend_run_cleanup_witness :
    (wBackendDirty.run wComputeErr 7 true true).2.1.function =
      wBackendDirty.base_function ∧
    (wBackendDirty.run wComputeErr 7 true true).2.1.environment =
      wBackendDirty.base_environment ∧
    (wBackendDirty.run wComputeErr 7 true true).1 = .error "boom" :=
  ⟨(backend_run_cleanup_on_every_exit Nat Nat Nat String wComputeErr wBackendDirty
      7 true true).2.1 rfl,
   ((backend_run_cleanup_on_every_exit Nat Nat Nat String wComputeErr wBackendDirty
      7 true true).2.2.2.1 rfl).1,
   (backend_run_cleanup_on_every_exit Nat Nat Nat String wComputeErr wBackendDirty
      7 true true).2.2.2.2.2.2.2 "boom" rfl⟩

/-- C8: `Backend.set_function` merges the partial map into a copy of the
current function configuration by shallow key overwrite and stores it, leaving
the current environment and both base configurations unchanged and invoking no
`update_environment`; the merged configuration is what the next `run` passes
to `compute`. -/
theorem backend_set_function_frame (Val Inp Out Err : Type)
    (b : Backend Val) (p : Config Val) :
    (@Backend.set_function Val Inp Out Err b p).1.environment = b.environment ∧
    (@Backend.set_function Val Inp Out Err b p).1.base_environment = b.base_environment ∧
    (@Backend.set_function Val Inp Out Err b p).1.base_function = b.base_function ∧
    (@Backend.set_function Val Inp Out Err b p).1.function = dictUpdate b.function p ∧
    (@Backend.set_function Val Inp Out Err b p).2 = [] ∧
    ((p.map Prod.fst).Nodup → ∀ k,
      lookupKey (@Backend.set_function Val Inp Out Err b p).1.function k =
        (lookupKey p k).orElse fun _ => lookupKey b.function k) ∧
    (∀ (compute : Inp → Config Val → Except Err (Option Out)) (input : Inp)
        (ce cf : Bool),
      BEvent.compute input (dictUpdate b.function p)
          (compute input (dictUpdate b.function p)) ∈
        ((@Backend.set_function Val Inp Out Err b p).1.run compute input ce cf).2.2) := by
  refine ⟨rfl, rfl, rfl, rfl, rfl, fun h k => lookup_dictUpdate b.function p h k, ?_⟩
  intro compute input ce cf
  simp [Backend.run, Backend.set_function]

/-- Witness for C8 at concrete inputs: overwriting key `f` and adding key `g`. -/
theorem backend_set_function_frame_witness :
    ([(("f" : String), (2 : Nat)), ("g", 3)].map Prod.fst).Nodup ∧
    lookupKey (@Backend.set_function Nat Nat Nat String wBackendClean
        [("f", 2), ("g", 3)]).1.function "f" = some 2 ∧
    lookupKey (@Backend.set_function Nat Nat Nat String wBackendClean
        [("f", 2), ("g", 3)]).1.function "g" = some 3 := by
  refine ⟨by decide, ?_, ?_⟩
  · rw [(backend_set_function_frame Nat Nat Nat String wBackendClean
      [("f", 2), ("g", 3)]).2.2.2.2.2.1 (by decide) "f"]
    decide
  · rw [(backend_set_function_frame Nat Nat Nat String wBackendClean
      [("f", 2), ("g", 3)]).2.2.2.2.2.1 (by decide) "g"]
    decide

/-- C3: in `Engine._build_references`, an input whose `reference` value is
present (and non-`None`) yields a reference slice with exactly that value as
output and `meta.source = "provided"`, with the backend state untouched and no
backend events at all (in particular no `compute` call); an input without one
executes `backend.run(input.data, cleanup_env=True, cleanup_fn=True)` and
yields a slice with the run's output and `meta.source = "executed"`. -/
theorem build_reference_provided_vs_executed (Val Inp Out Err : Type)
    (compute : Inp → Config Val → Except Err (Option Out)) (b : Backend Val)
    (input : Input Inp Out) :
    (∀ v : Out, input.reference.getD none = some v →
      buildRefSlice compute b input =
        (.ok { input := input, output := some v, function := b.function,
               environment := b.environment, variation := none,
               meta := [("source", "provided")] }, b, [])) ∧
    (input.reference.getD none = none →
      ∀ out, compute input.data b.function = .ok out →
        buildRefSlice compute b input =
          (.ok { input := input, output := out, function := b.function,
                 environment := b.environment, variation := none,
                 meta := [("source", "executed")] },
           { b with function := b.base_function,
                    environment := b.base_environment },
           [.run_call input.data true true,
            .compute input.data b.function (.ok out),
            .update_environment b.base_environment])) := by
  constructor
  · intro v hv
    simp [buildRefSlice, hv]
  · intro h out hc
    simp [buildRefSlice, h, Backend.run, hc]

/-- Witness for C3: one input with a provided reference, one without. -/
theorem build_reference_provided_vs_executed_witness :
    buildRefSlice wComputeOk wBackendClean
        { id := "a", data := 5, reference := some (some 9) } =
      (.ok { input := { id := "a", data := 5, reference := some (some 9) },
             output := some 9, function := wBackendClean.function,
             environment := wBackendClean.environment, variation := none,
             meta := [("source", "provided")] }, wBackendClean, []) ∧
    buildRefSlice wComputeOk wBackendClean (wInput "a" 5) =
      (.ok { input := wInput "a" 5, output := some 5,
             function := wBackendClean.function,
             environment := wBackendClean.environment, variation := none,
             meta := [("source", "executed")] },
       { wBackendClean with function := wBackendClean.base_function,
                            environment := wBackendClean.base_environment },
       [.run_call 5 true true, .compute 5 wBackendClean.function (.ok (some 5)),
        .update_environment wBackendClean.base_environment]) :=
  ⟨(build_reference_provided_vs_executed Nat Nat Nat String wComputeOk
      wBackendClean { id := "a", data := 5, reference := some (some 9) }).1 9 rfl,
   (build_reference_provided_vs_executed Nat Nat Nat String wComputeOk
      wBackendClean (wInput "a" 5)).2 rfl (some 5) rfl⟩

/-- C10: an input carrying the `reference` key with the explicit value `None`
is treated by `Engine._build_references` exactly like an input without the
key: `input.get("reference")` collapses both to `None` and the branch tests
the value (`is not None`), not key membership. The backend is executed for it
(a `compute` call occurs, and the slice's `meta.source` is `"executed"`), the
resulting backend state and event trace are identical in the two cases, and
the produced slices agree in every field except the verbatim-stored input
record itself (which necessarily retains the declared `reference` key). -/
theorem build_reference_none_valued_reference (Val Inp Out Err : Type)
    (compute : Inp → Config Val → Except Err (Option Out)) (b : Backend Val)
    (i : String) (d : Inp) :
    ((@buildRefSlice Val Inp Out Err compute b
        { id := i, data := d, reference := some none }).2 =
      (buildRefSlice compute b { id := i, data := d, reference := none }).2) ∧
    (∀ e, (@buildRefSlice Val Inp Out Err compute b
          { id := i, data := d, reference := some none }).1 = .error e ↔
        (buildRefSlice compute b { id := i, data := d, reference := none }).1 =
          .error e) ∧
    (∀ s1 : Slice Inp Out Val,
      (@buildRefSlice Val Inp Out Err compute b
          { id := i, data := d, reference := some none }).1 = .ok s1 →
      ∃ s2 : Slice Inp Out Val,
        (buildRefSlice compute b { id := i, data := d, reference := none }).1 =
            .ok s2 ∧
          s1.output = s2.output ∧ s1.function = s2.function ∧
          s1.environment = s2.environment ∧ s1.variation = s2.variation ∧
          s1.meta = s2.meta ∧ s1.input.id = s2.input.id ∧
          s1.input.data = s2.input.data) ∧
    (∀ (s : Slice Inp Out Val) (b2 : Backend Val)
        (evs : List (BEvent Val Inp Out Err)),
      buildRefSlice compute b { id := i, data := d, reference := some none } =
          (.ok s, b2, evs) →
        s.meta = [("source", "executed")] ∧
        BEvent.compute d b.function (compute d b.function) ∈ evs) := by
  refine ⟨?_, ?_, ?_, ?_⟩
  · cases hc : compute d b.function with
    | error e => simp [buildRefSlice, Backend.run, hc]
    | ok out => simp [buildRefSlice, Backend.run, hc]
  · intro e
    cases hc : compute d b.function with
    | error e2 => simp [buildRefSlice, Backend.run, hc]
    | ok out =>
      constructor <;> intro h <;>
        exact absurd h (by simp [buildRefSlice, Backend.run, hc])
  · intro s1 h
    cases hc : compute d b.function with
    | error e => simp [buildRefSlice, Backend.run, hc] at h
    | ok out =>
      simp [buildRefSlice, Backend.run, hc] at h
      subst h
      refine ⟨{ input := { id := i, data := d, reference := none },
                output := out, function := b.function,
                environment := b.environment, variation := none,
                meta := [("source", "executed")] }, ?_, rfl, rfl, rfl, rfl,
              rfl, rfl, rfl⟩
      simp [buildRefSlice, Backend.run, hc]
  · intro s b2 evs h
    cases hc : compute d b.function with
    | error e => simp [buildRefSlice, Backend.run, hc] at h
    | ok out =>
      simp [buildRefSlice, Backend.run, hc] at h
      obtain ⟨hs, _, hevs⟩ := h
      subst hevs
      constructor
      · rw [← hs]
      · simp [hc]

/-- Witness for C10 at a concrete input: the explicitly-`None` reference is
executed, with `meta.source = "executed"` and a `compute` call in the trace. -/
theorem build_reference_none_valued_reference_witness :
    (({ input := { id := "a", data := 5, reference := some none },
        output := some 5, function := wBackendClean.function,
        environment := wBackendClean.environment, variation := none,
        meta := [("source", "executed")] } : Slice Nat Nat Nat).meta =
          [("source", "executed")] ∧
      BEvent.compute 5 wBackendClean.function (wComputeOk 5 wBackendClean.function) ∈
        ([.run_call 5 true true,
          .compute 5 wBackendClean.function (.ok (some 5)),
          .update_environment wBackendClean.base_environment] :
          List (BEvent Nat Nat Nat String))) :=
  (build_reference_none_valued_reference Nat Nat Nat String wComputeOk
    wBackendClean "a" 5).2.2.2 _ _ _ rfl

/-! ### ReferenceCheck lemmas -/

theorem reference_pairs_aligned {Inp Out Val Ann : Type}
    (c : Slice Inp Out Val → Slice Inp Out Val → Severity × Ann)
    (pairs : List (Slice Inp Out Val × Slice Inp Out Val))
    (h : ∀ p ∈ pairs, p.1.input_id = p.2.input_id) :
    reference_pairs c pairs =
      .ok (pairs.map fun p => ((c p.1 p.2).1, p.1.id, (c p.1 p.2).2)) := by
  induction pairs with
  | nil => rfl
  | cons p rest ih =>
    obtain ⟨s, r⟩ := p
    have hp : s.input_id = r.input_id := h (s, r) (List.mem_cons_self _ _)
    have htail := ih (fun q hq => h q (List.mem_cons_of_mem _ hq))
    simp [reference_pairs, hp, htail]

theorem reference_pairs_misaligned {Inp Out Val Ann : Type}
    (c c' : Slice Inp Out Val → Slice Inp Out Val → Severity × Ann)
    (pairs : List (Slice Inp Out Val × Slice Inp Out Val))
    (h : ∃ p ∈ pairs, p.1.input_id ≠ p.2.input_id) :
    ∃ a b, a ≠ b ∧ reference_pairs c pairs = .error (.alignment a b) ∧
      reference_pairs c' pairs = .error (.alignment a b) := by
  induction pairs with
  | nil => simp at h
  | cons p rest ih =>
    obtain ⟨s, r⟩ := p
    by_cases hsr : s.input_id = r.input_id
    · have htail : ∃ q ∈ rest, q.1.input_id ≠ q.2.input_id := by
        obtain ⟨q, hq, hne⟩ := h
        rcases List.mem_cons.mp hq with rfl | hq
        · exact absurd hsr hne
        · exact ⟨q, hq, hne⟩
      obtain ⟨a, b, hab, h1, h2⟩ := ih htail
      exact ⟨a, b, hab, by simp [reference_pairs, hsr, h1],
        by simp [reference_pairs, hsr, h2]⟩
    · exact ⟨s.input_id, r.input_id, hsr, by simp [reference_pairs, hsr],
        by simp [reference_pairs, hsr]⟩

/-- C5: `ReferenceCheck.evaluate` raises on zero slices; raises the count
mismatch when `len(slices) != len(references)` before any pairwise comparison
(the result does not depend on the pairwise check at all); raises an alignment
error on a misaligned positional pair, identical for any pairwise check
function (the pair's check is not consulted); and only when every positional
pair is aligned returns the merged severity with the per-slice-id annotation
dict. -/
theorem reference_evaluate_spec (Inp Out Val Ann : Type)
    (c c' : Slice Inp Out Val → Slice Inp Out Val → Severity × Ann)
    (slices references : List (Slice Inp Out Val)) :
    (slices = [] →
      reference_evaluate c slices references = .error (.empty_slices .reference)) ∧
    (slices ≠ [] → slices.length ≠ references.length →
      reference_evaluate c slices references =
        .error (.count_mismatch slices.length references.length)) ∧
    (slices ≠ [] → slices.length = references.length →
      (∀ p ∈ slices.zip references, p.1.input_id = p.2.input_id) →
      reference_evaluate c slices references =
        .ok (Severity.merge ((slices.zip references).map fun p => (c p.1 p.2).1),
          (slices.zip references).foldl
            (fun acc p => setKey acc p.1.id ((c p.1 p.2).1.label, (c p.1 p.2).2))
            [])) ∧
    ((∃ p ∈ slices.zip references, p.1.input_id ≠ p.2.input_id) →
      slices.length = references.length →
      ∃ a b, a ≠ b ∧
        reference_evaluate c slices references = .error (.alignment a b) ∧
        reference_evaluate c' slices references = .error (.alignment a b)) := by
  refine ⟨?_, ?_, ?_, ?_⟩
  · rintro rfl; rfl
  · intro hne hlen
    cases slices with
    | nil => exact absurd rfl hne
    | cons s rest =>
      simp [reference_evaluate, hlen]
      intro h
      exact absurd h (by simpa using hlen)
  · intro hne hlen halign
    have hpairs := reference_pairs_aligned c (slices.zip references) halign
    cases slices with
    | nil => exact absurd rfl hne
    | cons s rest =>
      simp [reference_evaluate, hlen, hpairs, List.map_map, List.foldl_map]
      rfl
  · intro hmis hlen
    obtain ⟨a, b, hab, h1, h2⟩ :=
      reference_pairs_misaligned c c' (slices.zip references) hmis
    have hne : slices ≠ [] := by
      obtain ⟨p, hp, _⟩ := hmis
      intro hnil
      rw [hnil] at hp
      simp at hp
    cases slices with
    | nil => exact absurd rfl hne
    | cons s rest => exact ⟨a, b, hab, by simp [reference_evaluate, hlen, h1],
        by simp [reference_evaluate, hlen, h2]⟩

/-- Witness for C5: empty, count-mismatched, aligned and misaligned concrete
instances. -/
theorem reference_evaluate_spec_witness :
    reference_evaluate (fun _ _ => (Severity.pass, ()))
        ([] : List (Slice Nat Nat Nat)) [] = .error (.empty_slices .reference) ∧
    reference_evaluate (fun _ _ => (Severity.pass, ())) [wSlice "a" 1] [] =
      .error (.count_mismatch 1 0) ∧
    (∃ r, reference_evaluate (fun _ _ => (Severity.pass, ()))
        [wSlice "a" 1] [wSlice "a" 2] = .ok r) ∧
    (∃ a b, a ≠ b ∧
      reference_evaluate (fun _ _ => (Severity.pass, ()))
          [wSlice "a" 1] [wSlice "b" 1] = .error (.alignment a b) ∧
      reference_evaluate (fun _ _ => (Severity.warn, ()))
          [wSlice "a" 1] [wSlice "b" 1] = .error (.alignment a b)) :=
  ⟨(reference_evaluate_spec Nat Nat Nat Unit (fun _ _ => (Severity.pass, ()))
      (fun _ _ => (Severity.pass, ())) [] []).1 rfl,
   (reference_evaluate_spec Nat Nat Nat Unit (fun _ _ => (Severity.pass, ()))
      (fun _ _ => (Severity.pass, ())) [wSlice "a" 1] []).2.1 (by simp) (by simp),
   ⟨_, (reference_evaluate_spec Nat Nat Nat Unit (fun _ _ => (Severity.pass, ()))
      (fun _ _ => (Severity.pass, ())) [wSlice "a" 1] [wSlice "a" 2]).2.2.1
      (by simp) rfl (by simp [wSlice, wInput, Slice.input_id])⟩,
   (reference_evaluate_spec Nat Nat Nat Unit (fun _ _ => (Severity.pass, ()))
      (fun _ _ => (Severity.warn, ())) [wSlice "a" 1] [wSlice "b" 1]).2.2.2
      (by simp [wSlice, wInput, Slice.input_id]) rfl⟩

/-! ### GroupCheck lemmas -/

theorem setKey_eq_append {α : Type} {l : List (String × α)} {k : String} (v : α)
    (h : k ∉ l.map Prod.fst) : setKey l k v = l ++ [(k, v)] := by
  induction l with
  | nil => rfl
  | cons kv rest ih =>
    simp only [List.map_cons, List.mem_cons] at h
    push_neg at h
    have hne : ¬ kv.1 = k := fun hk => h.1 hk.symm
    simp [setKey, hne, ih h.2]

theorem mem_dedupFirst (l : List String) (a : String) :
    a ∈ dedupFirst l ↔ a ∈ l := by
  induction l with
  | nil => simp [dedupFirst]
  | cons k rest ih =>
    by_cases ha : a = k
    · subst ha; simp [dedupFirst]
    · simp [dedupFirst, List.mem_filter, ha, ih]

theorem nodup_dedupFirst (l : List String) : (dedupFirst l).Nodup := by
  induction l with
  | nil => simp [dedupFirst]
  | cons k rest ih =>
    refine List.nodup_cons.mpr ⟨?_, List.Nodup.filter _ ih⟩
    intro hmem
    have := (List.mem_filter.mp hmem).2
    simp at this

theorem dedupFirst_concat (l : List String) (k : String) :
    dedupFirst (l ++ [k]) =
      if k ∈ l then dedupFirst l else dedupFirst l ++ [k] := by
  induction l with
  | nil => simp [dedupFirst]
  | cons a rest ih =>
    have ih2 : dedupFirst (List.append rest [k]) =
        if k ∈ rest then dedupFirst rest else dedupFirst rest ++ [k] := ih
    by_cases hk : k ∈ rest
    · have hk2 : k ∈ a :: rest := List.mem_cons_of_mem _ hk
      simp only [List.cons_append, dedupFirst, ih, ih2, if_pos hk, if_pos hk2]
    · by_cases hka : k = a
      · subst hka
        have hk2 : k ∈ k :: rest := List.mem_cons_self _ _
        simp only [List.cons_append, dedupFirst, ih, ih2, if_neg hk, if_pos hk2,
          List.filter_append]
        simp
      · have hk2 : k ∉ a :: rest := by
          simp only [List.mem_cons]
          push_neg
          exact ⟨hka, hk⟩
        simp only [List.cons_append, dedupFirst, ih, ih2, if_neg hk, if_neg hk2,
          List.filter_append]
        congr 1
        simp [hka]

theorem insertGroup_map {Inp Out Val : Type} (keys : List String)
    (f : String → List (Slice Inp Out Val)) (hnd : keys.Nodup) (k : String)
    (s : Slice Inp Out Val) :
    insertGroup (keys.map fun k2 => (k2, f k2)) k s =
      (if k ∈ keys then
        keys.map (fun k2 => (k2, f k2 ++ if k2 = k then [s] else []))
      else (keys.map fun k2 => (k2, f k2)) ++ [(k, [s])]) := by
  induction keys with
  | nil => simp [insertGroup]
  | cons k0 rest ih =>
    obtain ⟨hk0, hndr⟩ := List.nodup_cons.mp hnd
    by_cases hk : k0 = k
    · subst hk
      have hmem : k0 ∈ k0 :: rest := List.mem_cons_self _ _
      simp only [List.map_cons, insertGroup, if_pos rfl, if_pos hmem]
      refine List.cons_eq_cons.mpr ⟨by simp, ?_⟩
      refine (List.map_congr_left ?_).symm
      intro x hx
      have hxne : ¬ x = k0 := fun h => hk0 (h ▸ hx)
      simp [hxne]
    · simp only [List.map_cons, insertGroup, if_neg hk]
      rw [ih hndr]
      by_cases hmem : k ∈ rest
      · have hmem2 : k ∈ k0 :: rest := List.mem_cons_of_mem _ hmem
        simp only [if_pos hmem, if_pos hmem2, List.map_cons]
        refine List.cons_eq_cons.mpr ⟨?_, rfl⟩
        simp [hk]
      · have hkk0 : ¬ k = k0 := fun h => hk h.symm
        simp [hmem, hkk0]

theorem groupSlices_spec {Inp Out Val : Type} (slices : List (Slice Inp Out Val)) :
    groupSlices slices =
      (dedupFirst (slices.map Slice.input_id)).map
        (fun k => (k, slices.filter (fun s => s.input_id = k))) := by
  induction slices using List.reverseRecOn with
  | nil => rfl
  | append_singleton l s ih =>
    have h1 : groupSlices (l ++ [s]) = insertGroup (groupSlices l) s.input_id s := by
      simp [groupSlices, List.foldl_append]
    rw [h1, ih, insertGroup_map _ _ (nodup_dedupFirst _) _ s]
    have hids : (l ++ [s]).map Slice.input_id = l.map Slice.input_id ++ [s.input_id] := by
      simp
    rw [hids, dedupFirst_concat]
    by_cases hmem : s.input_id ∈ l.map Slice.input_id
    · have hmem2 : s.input_id ∈ dedupFirst (l.map Slice.input_id) :=
        (mem_dedupFirst _ _).mpr hmem
      rw [if_pos hmem, if_pos hmem2]
      refine List.map_congr_left ?_
      intro k hk
      refine Prod.ext rfl ?_
      show l.filter (fun s2 => s2.input_id = k) ++ (if k = s.input_id then [s] else []) =
        (l ++ [s]).filter (fun s2 => s2.input_id = k)
      rw [List.filter_append]
      congr 1
      by_cases hks : k = s.input_id
      · simp [hks.symm, List.filter]
      · have : ¬ s.input_id = k := fun h => hks h.symm
        simp [hks, List.filter, this]
    · have hmem2 : s.input_id ∉ dedupFirst (l.map Slice.input_id) :=
        fun h => hmem ((mem_dedupFirst _ _).mp h)
      rw [if_neg hmem, if_neg hmem2, List.map_append]
      congr 1
      · refine List.map_congr_left ?_
        intro k hk
        refine Prod.ext rfl ?_
        show l.filter (fun s2 => s2.input_id = k) =
          (l ++ [s]).filter (fun s2 => s2.input_id = k)
        rw [List.filter_append]
        have hks : k ∈ l.map Slice.input_id := (mem_dedupFirst _ _).mp hk
        have : ¬ s.input_id = k := fun h => hmem (h ▸ hks)
        simp [List.filter, this]
      · have hfl : l.filter (fun s2 => s2.input_id = s.input_id) = [] := by
          refine List.filter_eq_nil_iff.mpr ?_
          intro a ha
          simp only [decide_eq_true_eq]
          intro hid
          exact hmem (hid ▸ List.mem_map_of_mem Slice.input_id ha)
        simp [List.filter_append, hfl, List.filter]

theorem group_fold_decomp {Inp Out Val Ann : Type}
    (c : List (Slice Inp Out Val) → Severity × Ann)
    (gs : List (String × List (Slice Inp Out Val))) :
    ∀ (sev0 : List Severity) (res0 : List (String × String × Ann))
      (sk0 : List String),
      (∀ g ∈ gs, g.1 ∉ res0.map Prod.fst) → (gs.map Prod.fst).Nodup →
      gs.foldl (group_step c) (sev0, res0, sk0) =
        (sev0 ++ (gs.filter (fun g => 2 ≤ g.2.length)).map (fun g => (c g.2).1),
         res0 ++ (gs.filter (fun g => 2 ≤ g.2.length)).map
           (fun g => (g.1, (c g.2).1.label, (c g.2).2)),
         sk0 ++ (gs.filter (fun g => g.2.length < 2)).map Prod.fst) := by
  induction gs with
  | nil => intro sev0 res0 sk0 hfresh hnd; simp
  | cons g rest ih =>
    intro sev0 res0 sk0 hfresh hnd
    obtain ⟨hg1, hndr⟩ := List.nodup_cons.mp hnd
    by_cases hlen : g.2.length < 2
    · have hstep : group_step c (sev0, res0, sk0) g = (sev0, res0, sk0 ++ [g.1]) := by
        simp [group_step, hlen]
      have hnotle : ¬ 2 ≤ g.2.length := by omega
      simp only [List.foldl_cons, hstep,
        ih sev0 res0 (sk0 ++ [g.1])
          (fun g2 hg2 => hfresh g2 (List.mem_cons_of_mem _ hg2)) hndr,
        List.filter_cons, decide_eq_true_eq, hlen, hnotle, if_true, if_false,
        decide_True, decide_False, List.map_cons, List.append_assoc,
        List.singleton_append]
      simp
    · have hle : 2 ≤ g.2.length := by omega
      rcases hcg : c g.2 with ⟨sev, ann⟩
      have hfresh0 : g.1 ∉ res0.map Prod.fst := hfresh g (List.mem_cons_self _ _)
      have hstep : group_step c (sev0, res0, sk0) g =
          (sev0 ++ [sev], res0 ++ [(g.1, sev.label, ann)], sk0) := by
        simp [group_step, hlen, hcg, setKey_eq_append _ hfresh0]
      have hfresh2 : ∀ g2 ∈ rest, g2.1 ∉
          (res0 ++ [(g.1, sev.label, ann)]).map Prod.fst := by
        intro g2 hg2
        simp only [List.map_append, List.mem_append, List.map_cons, List.map_nil,
          List.mem_singleton]
        push_neg
        refine ⟨hfresh g2 (List.mem_cons_of_mem _ hg2), ?_⟩
        intro hEq
        exact hg1 (hEq ▸ List.mem_map_of_mem Prod.fst hg2)
      simp only [List.foldl_cons, hstep,
        ih (sev0 ++ [sev]) (res0 ++ [(g.1, sev.label, ann)]) sk0 hfresh2 hndr,
        List.filter_cons, decide_eq_true_eq, hlen, hle, if_true, if_false,
        decide_True, decide_False, List.map_cons, List.append_assoc,
        List.singleton_append, hcg]
      simp [hcg]

theorem merge_ite (l : List Severity) :
    (if l.isEmpty then Severity.info else Severity.merge l) = Severity.merge l := by
  cases l <;> rfl

theorem groupSlices_keys_nodup {Inp Out Val : Type}
    (slices : List (Slice Inp Out Val)) :
    ((groupSlices slices).map Prod.fst).Nodup := by
  rw [groupSlices_spec, List.map_map]
  have hcomp : (Prod.fst ∘ fun k =>
      (k, slices.filter (fun s => s.input_id = k))) = id := rfl
  rw [hcomp, List.map_id]
  exact nodup_dedupFirst _

theorem mem_ids_iff_filter_pos {Inp Out Val : Type}
    (slices : List (Slice Inp Out Val)) (k : String) :
    k ∈ slices.map Slice.input_id ↔
      0 < (slices.filter (fun s => s.input_id = k)).length := by
  rw [List.length_pos]
  constructor
  · intro h
    obtain ⟨s, hs, hid⟩ := List.mem_map.mp h
    exact List.ne_nil_of_mem (List.mem_filter.mpr ⟨hs, by simp [hid]⟩)
  · intro h
    obtain ⟨s, hs⟩ := List.exists_mem_of_ne_nil _ h
    have hm := List.mem_filter.mp hs
    exact List.mem_map.mpr ⟨s, hm.1, by simpa using hm.2⟩

/-- C6: `GroupCheck.evaluate` raises on zero slices; otherwise it partitions
the slices into groups keyed by `input_id` in first-appearance order with
slice order preserved inside each group (each group is the filter of the
slices by its key), skips every group with fewer than 2 members (recorded by
id in `skipped`, absent from `groups`, not contributing to the merged
severity), evaluates every group with at least 2 members, merges the
severities of the evaluated groups (INFO when none qualified, since `merge []
= INFO`), and returns the `{groups, n_groups, skipped, n_skipped}` shape. -/
theorem group_evaluate_spec (Inp Out Val Ann : Type)
    (c : List (Slice Inp Out Val) → Severity × Ann)
    (slices : List (Slice Inp Out Val)) :
    (slices = [] → group_evaluate c slices = .error (.empty_slices .group)) ∧
    (slices ≠ [] →
      group_evaluate c slices = .ok
        (Severity.merge
          (((dedupFirst (slices.map Slice.input_id)).filter
              (fun k => 2 ≤ (slices.filter (fun s => s.input_id = k)).length)).map
            (fun k => (c (slices.filter (fun s => s.input_id = k))).1)),
         { groups := ((dedupFirst (slices.map Slice.input_id)).filter
              (fun k => 2 ≤ (slices.filter (fun s => s.input_id = k)).length)).map
              (fun k => (k, (c (slices.filter (fun s => s.input_id = k))).1.label,
                (c (slices.filter (fun s => s.input_id = k))).2)),
           n_groups := (((dedupFirst (slices.map Slice.input_id)).filter
              (fun k => 2 ≤ (slices.filter (fun s => s.input_id = k)).length)).map
              (fun k => (k, (c (slices.filter (fun s => s.input_id = k))).1.label,
                (c (slices.filter (fun s => s.input_id = k))).2))).length,
           skipped := (dedupFirst (slices.map Slice.input_id)).filter
              (fun k => (slices.filter (fun s => s.input_id = k)).length < 2),
           n_skipped := ((dedupFirst (slices.map Slice.input_id)).filter
              (fun k => (slices.filter (fun s => s.input_id = k)).length < 2)).length })) ∧
    (∀ sev res, group_evaluate c slices = .ok (sev, res) →
      (∀ k, k ∈ res.skipped ↔
        (slices.filter (fun s => s.input_id = k)).length = 1) ∧
      (∀ k, (∃ e, (k, e) ∈ res.groups) ↔
        2 ≤ (slices.filter (fun s => s.input_id = k)).length) ∧
      (∀ k, k ∈ res.skipped → ∀ e, (k, e) ∉ res.groups) ∧
      res.n_groups = res.groups.length ∧ res.n_skipped = res.skipped.length) := by
  have key : slices ≠ [] →
      group_evaluate c slices = .ok
        (Severity.merge
          (((dedupFirst (slices.map Slice.input_id)).filter
              (fun k => 2 ≤ (slices.filter (fun s => s.input_id = k)).length)).map
            (fun k => (c (slices.filter (fun s => s.input_id = k))).1)),
         { groups := ((dedupFirst (slices.map Slice.input_id)).filter
              (fun k => 2 ≤ (slices.filter (fun s => s.input_id = k)).length)).map
              (fun k => (k, (c (slices.filter (fun s => s.input_id = k))).1.label,
                (c (slices.filter (fun s => s.input_id = k))).2)),
           n_groups := (((dedupFirst (slices.map Slice.input_id)).filter
              (fun k => 2 ≤ (slices.filter (fun s => s.input_id = k)).length)).map
              (fun k => (k, (c (slices.filter (fun s => s.input_id = k))).1.label,
                (c (slices.filter (fun s => s.input_id = k))).2))).length,
           skipped := (dedupFirst (slices.map Slice.input_id)).filter
              (fun k => (slices.filter (fun s => s.input_id = k)).length < 2),
           n_skipped := ((dedupFirst (slices.map Slice.input_id)).filter
              (fun k => (slices.filter (fun s => s.input_id = k)).length < 2)).length }) := by
    intro hne
    cases slices with
    | nil => exact absurd rfl hne
    | cons s rest =>
      have hnd := groupSlices_keys_nodup (s :: rest)
      have hdecomp := group_fold_decomp c (groupSlices (s :: rest)) [] [] []
        (by simp) hnd
      have hgv : group_evaluate c (s :: rest) =
          (match (groupSlices (s :: rest)).foldl (group_step c) ([], [], []) with
           | (severities, results, skipped) =>
             .ok ((if severities.isEmpty then Severity.info
                   else Severity.merge severities),
               { groups := results, n_groups := results.length,
                 skipped := skipped, n_skipped := skipped.length })) := rfl
      rw [hgv, hdecomp]
      simp only [List.nil_append]
      rw [groupSlices_spec]
      simp only [List.filter_map, List.map_map]
      rw [merge_ite]
      have hid : (Prod.fst ∘ fun k =>
          (k, (s :: rest).filter (fun s2 => s2.input_id = k))) = id := rfl
      rw [hid, List.map_id]
      rfl
  refine ⟨?_, key, ?_⟩
  · rintro rfl; rfl
  · intro sev res heq
    by_cases hnil : slices = []
    · subst hnil
      simp [group_evaluate] at heq
    · have h2 := key hnil
      rw [h2] at heq
      obtain ⟨hsev, hres⟩ := Prod.mk.injEq .. ▸ Except.ok.inj heq
      subst hres
      have hskip : ∀ k,
          (k ∈ (dedupFirst (slices.map Slice.input_id)).filter
              (fun k => (slices.filter (fun s => s.input_id = k)).length < 2) ↔
            (slices.filter (fun s => s.input_id = k)).length = 1) := by
        intro k
        constructor
        · intro hk
          obtain ⟨hmem, hlt⟩ := List.mem_filter.mp hk
          have hpos := (mem_ids_iff_filter_pos slices k).mp
            ((mem_dedupFirst _ _).mp hmem)
          simp only [decide_eq_true_eq] at hlt
          omega
        · intro h1
          refine List.mem_filter.mpr ⟨(mem_dedupFirst _ _).mpr
            ((mem_ids_iff_filter_pos slices k).mpr (by omega)), by simp [h1]⟩
      have hgrp : ∀ k,
          ((∃ e, (k, e) ∈ ((dedupFirst (slices.map Slice.input_id)).filter
              (fun k => 2 ≤ (slices.filter (fun s => s.input_id = k)).length)).map
              (fun k => (k, (c (slices.filter (fun s => s.input_id = k))).1.label,
                (c (slices.filter (fun s => s.input_id = k))).2))) ↔
            2 ≤ (slices.filter (fun s => s.input_id = k)).length) := by
        intro k
        constructor
        · rintro ⟨e, he⟩
          obtain ⟨k2, hk2, heq2⟩ := List.mem_map.mp he
          obtain ⟨hkEq, -⟩ := Prod.mk.injEq .. ▸ heq2
          subst hkEq
          have := (List.mem_filter.mp hk2).2
          simpa using this
        · intro h2le
          exact ⟨_, List.mem_map.mpr ⟨k, List.mem_filter.mpr
            ⟨(mem_dedupFirst _ _).mpr ((mem_ids_iff_filter_pos slices k).mpr
              (by omega)), by simp [h2le]⟩, rfl⟩⟩
      exact ⟨hskip, hgrp,
        fun k hk e he => by
          have ha := (hskip k).mp hk
          have hb := (hgrp k).mp ⟨e, he⟩
          omega,
        rfl, rfl⟩

/-- Witness for C6: three slices over ids `a`, `a`, `b`: the singleton group
`b` is skipped, the pair group `a` is evaluated. -/
theorem group_evaluate_spec_witness :
    group_evaluate (fun g : List (Slice Nat Nat Nat) => (Severity.pass, g.length))
        [] = .error (.empty_slices .group) ∧
    (∃ sev res,
      group_evaluate (fun g : List (Slice Nat Nat Nat) => (Severity.pass, g.length))
          [wSlice "a" 1, wSlice "b" 2, wSlice "a" 3] = .ok (sev, res) ∧
      ("b" ∈ res.skipped ↔
        ([wSlice "a" 1, wSlice "b" 2, wSlice "a" 3].filter
          (fun s => s.input_id = "b")).length = 1) ∧
      ((∃ e, ("a", e) ∈ res.groups) ↔
        2 ≤ ([wSlice "a" 1, wSlice "b" 2, wSlice "a" 3].filter
          (fun s => s.input_id = "a")).length)) := by
  constructor
  · exact (group_evaluate_spec Nat Nat Nat Nat
      (fun g => (Severity.pass, g.length)) []).1 rfl
  · have h := (group_evaluate_spec Nat Nat Nat Nat
      (fun g => (Severity.pass, g.length))
      [wSlice "a" 1, wSlice "b" 2, wSlice "a" 3]).2.1 (by simp)
    have h3 := (group_evaluate_spec Nat Nat Nat Nat
      (fun g => (Severity.pass, g.length))
      [wSlice "a" 1, wSlice "b" 2, wSlice "a" 3]).2.2 _ _ h
    exact ⟨_, _, h, h3.1 "b", h3.2.1 "a"⟩

/-! ### Engine state lemmas -/

theorem backend_run_state {Val Inp Out Err : Type}
    (compute : Inp → Config Val → Except Err (Option Out)) (b : Backend Val)
    (input : Inp) (ce cf : Bool) :
    (Backend.run compute b input ce cf).2.1 =
      { base_environment := b.base_environment, base_function := b.base_function,
        environment := if ce then b.base_environment else b.environment,
        function := if cf then b.base_function else b.function } := by
  cases ce <;> cases cf <;> rfl

theorem buildRefSlice_preserves {Val Inp Out Err : Type}
    (compute : Inp → Config Val → Except Err (Option Out)) (b : Backend Val)
    (input : Input Inp Out) :
    (buildRefSlice compute b input).2.1.base_environment = b.base_environment ∧
    (buildRefSlice compute b input).2.1.base_function = b.base_function ∧
    (b.environment = b.base_environment → b.function = b.base_function →
      (buildRefSlice compute b input).2.1.environment =
        (buildRefSlice compute b input).2.1.base_environment ∧
      (buildRefSlice compute b input).2.1.function =
        (buildRefSlice compute b input).2.1.base_function) := by
  rcases href : input.reference.getD none with _ | v
  · cases hc : compute input.data b.function with
    | error e => simp [buildRefSlice, Backend.run, href, hc]
    | ok out => simp [buildRefSlice, Backend.run, href, hc]
  · have hb : buildRefSlice compute b input =
        (.ok { input := input, output := some v, function := b.function,
               environment := b.environment, variation := none,
               meta := [("source", "provided")] }, b, []) := by
      simp [buildRefSlice, href]
    rw [hb]
    exact ⟨rfl, rfl, fun h1 h2 => ⟨h1, h2⟩⟩

theorem build_references_aux_state {Val Inp Out Err : Type}
    (compute : Inp → Config Val → Except Err (Option Out)) :
    ∀ (inputs : List (Input Inp Out)) (b : Backend Val)
      (acc : List (String × Slice Inp Out Val)),
      (build_references_aux compute b acc inputs).2.1.base_environment =
        b.base_environment ∧
      (build_references_aux compute b acc inputs).2.1.base_function =
        b.base_function ∧
      (b.environment = b.base_environment → b.function = b.base_function →
        (build_references_aux compute b acc inputs).2.1.environment =
          (build_references_aux compute b acc inputs).2.1.base_environment ∧
        (build_references_aux compute b acc inputs).2.1.function =
          (build_references_aux compute b acc inputs).2.1.base_function) := by
  intro inputs
  induction inputs with
  | nil =>
    intro b acc
    exact ⟨rfl, rfl, fun h1 h2 => ⟨h1, h2⟩⟩
  | cons input rest ih =>
    intro b acc
    rcases hb : buildRefSlice compute b input with ⟨res1, b1, evs1⟩
    have hpres := buildRefSlice_preserves compute b input
    rw [hb] at hpres
    simp only at hpres
    cases res1 with
    | error e =>
      simp only [build_references_aux, hb]
      exact hpres
    | ok slice =>
      have hih := ih b1 (setKey acc input.id slice)
      rcases hrec : build_references_aux compute b1 (setKey acc input.id slice) rest
        with ⟨res2, b2, evs2⟩
      rw [hrec] at hih
      simp only at hih
      cases res2 with
      | error e =>
        simp only [build_references_aux, hb, hrec]
        exact ⟨hih.1.trans hpres.1, hih.2.1.trans hpres.2.1,
          fun h1 h2 => hih.2.2 (hpres.2.2 h1 h2).1 (hpres.2.2 h1 h2).2⟩
      | ok refs =>
        simp only [build_references_aux, hb, hrec]
        exact ⟨hih.1.trans hpres.1, hih.2.1.trans hpres.2.1,
          fun h1 h2 => hih.2.2 (hpres.2.2 h1 h2).1 (hpres.2.2 h1 h2).2⟩

theorem run_variation_aux_state {Val Inp Out Err : Type}
    (compute : Inp → Config Val → Except Err (Option Out))
    (variation : Option (Variation Inp Out Val)) (total : Nat) :
    ∀ (inputs : List (Input Inp Out)) (b : Backend Val) (idx : Nat),
      idx + inputs.length = total →
      ∀ (slices : List (Slice Inp Out Val)) (b2 : Backend Val)
        (evs : List (BEvent Val Inp Out Err)),
        run_variation_aux compute variation total b idx inputs =
          (.ok slices, b2, evs) →
        b2.base_environment = b.base_environment ∧
        b2.base_function = b.base_function ∧
        (inputs = [] → b2 = b) ∧
        (inputs ≠ [] → variation.map Variation.intent = some .function →
          b2.function = b.base_function ∧ b2.environment = b.environment) ∧
        (inputs ≠ [] → variation.map Variation.intent = some .environment →
          b2.environment = b.base_environment ∧ b2.function = b.function) ∧
        (inputs ≠ [] → variation.map Variation.intent ≠ some .function →
          variation.map Variation.intent ≠ some .environment → b2 = b) := by
  intro inputs
  induction inputs with
  | nil =>
    intro b idx hidx slices b2 evs heq
    simp only [run_variation_aux, Prod.mk.injEq, Except.ok.injEq] at heq
    obtain ⟨-, hb, -⟩ := heq
    subst hb
    exact ⟨rfl, rfl, fun _ => rfl, fun h => absurd rfl h, fun h => absurd rfl h,
      fun h => absurd rfl h⟩
  | cons input rest ih =>
    intro b idx hidx slices b2 evs heq
    have hcons : (input :: rest : List (Input Inp Out)) ≠ [] := by simp
    rcases hc : compute input.data b.function with e | out
    · exfalso
      rcases hint : variation.map Variation.intent with _ | vi
      · simp [run_variation_aux, Backend.run, hc, hint] at heq
      · cases vi <;> simp [run_variation_aux, Backend.run, hc, hint] at heq
    · rcases hint : variation.map Variation.intent with _ | vi
      case none =>
        simp only [run_variation_aux, Backend.run, hc, hint, Bool.and_false,
          decide_False, show (decide ((none : Option VIntent) = some VIntent.function)) = false
            from by simp,
          show (decide ((none : Option VIntent) = some VIntent.environment)) = false
            from by simp, if_false, Bool.false_and,
          show ((false : Bool) = true) = False from by simp,
          show ((true : Bool) = true) = True from by simp, if_true] at heq
        rcases hrec : run_variation_aux compute variation total b (idx + 1) rest
          with ⟨res2, b2x, evs2⟩
        rw [hrec] at heq
        cases res2 with
        | error e => simp at heq
        | ok slices2 =>
          simp only [Prod.mk.injEq, Except.ok.injEq] at heq
          obtain ⟨-, hb, -⟩ := heq
          subst hb
          have hih := ih b (idx + 1) (by simp at hidx; omega) slices2 b2x evs2 hrec
          refine ⟨hih.1, hih.2.1, fun h => absurd h hcons,
            fun _ h => ?_, fun _ h => ?_, fun _ _ _ => ?_⟩
          · exact absurd h (by simp)
          · exact absurd h (by simp)
          · by_cases hrest : rest = []
            · exact hih.2.2.1 hrest
            · exact hih.2.2.2.2.2 hrest (by simp [hint]) (by simp [hint])
      case some =>
        cases vi with
        | input =>
          simp only [run_variation_aux, Backend.run, hc, hint, Bool.and_false,
            decide_False,
            show (decide (some VIntent.input = some VIntent.function)) = false
              from by simp,
            show (decide (some VIntent.input = some VIntent.environment)) = false
              from by simp, if_false, Bool.false_and,
            show ((false : Bool) = true) = False from by simp,
            show ((true : Bool) = true) = True from by simp, if_true] at heq
          rcases hrec : run_variation_aux compute variation total b (idx + 1) rest
            with ⟨res2, b2x, evs2⟩
          rw [hrec] at heq
          cases res2 with
          | error e => simp at heq
          | ok slices2 =>
            simp only [Prod.mk.injEq, Except.ok.injEq] at heq
            obtain ⟨-, hb, -⟩ := heq
            subst hb
            have hih := ih b (idx + 1) (by simp at hidx; omega) slices2 b2x evs2 hrec
            refine ⟨hih.1, hih.2.1, fun h => absurd h hcons,
              fun _ h => ?_, fun _ h => ?_, fun _ _ _ => ?_⟩
            · exact absurd h (by simp)
            · exact absurd h (by simp)
            · by_cases hrest : rest = []
              · exact hih.2.2.1 hrest
              · exact hih.2.2.2.2.2 hrest (by simp [hint]) (by simp [hint])
        | function =>
          by_cases hrest : rest = []
          · subst hrest
            have hidx2 : idx = total - 1 := by simp at hidx; omega
            have hd : decide (idx = total - 1) = true := by simp [hidx2]
            simp only [run_variation_aux, Backend.run, hc, hint, hd,
              Bool.true_and, Bool.and_false, Bool.and_true, decide_False,
              decide_True, if_true, if_false, Prod.mk.injEq, Except.ok.injEq,
              Bool.false_and,
              show (decide (some VIntent.function = some VIntent.function)) = true
                from by simp,
              show (decide (some VIntent.function = some VIntent.environment)) = false
                from by simp,
              show ((false : Bool) = true) = False from by simp,
              show ((true : Bool) = true) = True from by simp] at heq
            obtain ⟨-, hb, -⟩ := heq
            rw [← hb]
            refine ⟨rfl, rfl, fun h => absurd h hcons,
              fun _ _ => ⟨rfl, rfl⟩, fun _ h => ?_, fun _ h _ => ?_⟩
            · exact absurd h (by simp)
            · exact absurd rfl h
          · have hne2 : ¬ (idx = total - 1) := by
              have h1 : 1 ≤ rest.length := by
                cases rest with
                | nil => exact absurd rfl hrest
                | cons a t => simp
              simp only [List.length_cons] at hidx
              omega
            have hd : decide (idx = total - 1) = false := by simp [hne2]
            simp only [run_variation_aux, Backend.run, hc, hint, hd,
              Bool.false_and, if_false, Bool.and_false, Bool.and_true,
              decide_False, decide_True,
              show (decide (some VIntent.function = some VIntent.function)) = true
                from by simp,
              show (decide (some VIntent.function = some VIntent.environment)) = false
                from by simp,
              show ((false : Bool) = true) = False from by simp,
              show ((true : Bool) = true) = True from by simp] at heq
            rcases hrec : run_variation_aux compute variation total b (idx + 1) rest
              with ⟨res2, b2x, evs2⟩
            rw [hrec] at heq
            cases res2 with
            | error e => simp at heq
            | ok slices2 =>
              simp only [Prod.mk.injEq, Except.ok.injEq] at heq
              obtain ⟨-, hb, -⟩ := heq
              subst hb
              have hih := ih b (idx + 1) (by simp at hidx; omega) slices2 b2x evs2 hrec
              refine ⟨hih.1, hih.2.1, fun h => absurd h hcons,
                fun _ _ => hih.2.2.2.1 hrest hint, fun _ h => ?_, fun _ h _ => ?_⟩
              · exact absurd h (by simp)
              · exact absurd rfl h
        | environment =>
          by_cases hrest : rest = []
          · subst hrest
            have hidx2 : idx = total - 1 := by simp at hidx; omega
            have hd : decide (idx = total - 1) = true := by simp [hidx2]
            simp only [run_variation_aux, Backend.run, hc, hint, hd,
              Bool.true_and, Bool.and_false, Bool.and_true, decide_False,
              decide_True, if_true, if_false, Prod.mk.injEq, Except.ok.injEq,
              Bool.false_and,
              show (decide (some VIntent.environment = some VIntent.function)) = false
                from by simp,
              show (decide (some VIntent.environment = some VIntent.environment)) = true
                from by simp,
              show ((false : Bool) = true) = False from by simp,
              show ((true : Bool) = true) = True from by simp] at heq
            obtain ⟨-, hb, -⟩ := heq
            rw [← hb]
            refine ⟨rfl, rfl, fun h => absurd h hcons,
              fun _ h => ?_, fun _ _ => ⟨rfl, rfl⟩, fun _ _ h => ?_⟩
            · exact absurd h (by simp)
            · exact absurd rfl h
          · have hne2 : ¬ (idx = total - 1) := by
              have h1 : 1 ≤ rest.length := by
                cases rest with
                | nil => exact absurd rfl hrest
                | cons a t => simp
              simp only [List.length_cons] at hidx
              omega
            have hd : decide (idx = total - 1) = false := by simp [hne2]
            simp only [run_variation_aux, Backend.run, hc, hint, hd,
              Bool.false_and, if_false, Bool.and_false, Bool.and_true,
              decide_False, decide_True,
              show (decide (some VIntent.environment = some VIntent.function)) = false
                from by simp,
              show (decide (some VIntent.environment = some VIntent.environment)) = true
                from by simp,
              show ((false : Bool) = true) = False from by simp,
              show ((true : Bool) = true) = True from by simp] at heq
            rcases hrec : run_variation_aux compute variation total b (idx + 1) rest
              with ⟨res2, b2x, evs2⟩
            rw [hrec] at heq
            cases res2 with
            | error e => simp at heq
            | ok slices2 =>
              simp only [Prod.mk.injEq, Except.ok.injEq] at heq
              obtain ⟨-, hb, -⟩ := heq
              subst hb
              have hih := ih b (idx + 1) (by simp at hidx; omega) slices2 b2x evs2 hrec
              refine ⟨hih.1, hih.2.1, fun h => absurd h hcons,
                fun _ h => ?_, fun _ _ => hih.2.2.2.2.1 hrest hint, fun _ _ h => ?_⟩
              · exact absurd h (by simp)
              · exact absurd rfl h

theorem run_variations_clean {Val Inp Out Err : Type}
    (compute : Inp → Config Val → Except Err (Option Out))
    (inputs : List (Input Inp Out)) (hne : inputs ≠ []) :
    ∀ (variations : List (Option (Variation Inp Out Val))) (b : Backend Val),
      b.environment = b.base_environment → b.function = b.base_function →
      ∀ (slices : List (Slice Inp Out Val)) (b2 : Backend Val)
        (evs : List (BEvent Val Inp Out Err)),
        run_variations compute inputs b variations = (.ok slices, b2, evs) →
        b2.base_environment = b.base_environment ∧
        b2.base_function = b.base_function ∧
        b2.environment = b2.base_environment ∧
        b2.function = b2.base_function := by
  intro variations
  induction variations with
  | nil =>
    intro b h1 h2 slices b2 evs heq
    simp only [run_variations, Prod.mk.injEq, Except.ok.injEq] at heq
    obtain ⟨-, hb, -⟩ := heq
    subst hb
    exact ⟨rfl, rfl, h1, h2⟩
  | cons variation rest ih =>
    intro b h1 h2 slices b2 evs heq
    cases variation with
    | none =>
      simp only [run_variations] at heq
      rcases hrv : run_variation compute b inputs none with ⟨res1, bmid, evs1⟩
      rw [hrv] at heq
      cases res1 with
      | error e => simp at heq
      | ok s1 =>
        simp only [List.nil_append, List.singleton_append] at heq
        rcases hrec : run_variations compute inputs bmid rest
          with ⟨res2, bfin, evs2⟩
        rw [hrec] at heq
        cases res2 with
        | error e => simp at heq
        | ok s2 =>
          simp only [Prod.mk.injEq, Except.ok.injEq] at heq
          obtain ⟨-, hb, -⟩ := heq
          subst hb
          have hrv2 : run_variation_aux compute none inputs.length b 0 inputs =
              (.ok s1, bmid, evs1) := hrv
          have hst := run_variation_aux_state compute none inputs.length inputs
            b 0 (by omega) s1 bmid evs1 hrv2
          have hmid : bmid = b := hst.2.2.2.2.2 hne (by simp) (by simp)
          subst hmid
          exact ih bmid h1 h2 s2 bfin evs2 hrec
    | some v =>
      cases v with
      | input name vh vf =>
        simp only [run_variations, Variation.apply] at heq
        rcases hrv : run_variation compute b ((vf inputs).getD inputs)
            (some (.input name vh vf)) with ⟨res1, bmid, evs1⟩
        rw [hrv] at heq
        cases res1 with
        | error e => simp at heq
        | ok s1 =>
          simp only [List.nil_append, List.singleton_append] at heq
          rcases hrec : run_variations compute inputs bmid rest
            with ⟨res2, bfin, evs2⟩
          rw [hrec] at heq
          cases res2 with
          | error e => simp at heq
          | ok s2 =>
            simp only [Prod.mk.injEq, Except.ok.injEq] at heq
            obtain ⟨-, hb, -⟩ := heq
            subst hb
            have hrv2 : run_variation_aux compute (some (.input name vh vf))
                ((vf inputs).getD inputs).length b 0 ((vf inputs).getD inputs) =
                (.ok s1, bmid, evs1) := hrv
            have hst := run_variation_aux_state compute (some (.input name vh vf))
              ((vf inputs).getD inputs).length ((vf inputs).getD inputs)
              b 0 (by omega) s1 bmid evs1 hrv2
            have hmid : bmid = b := by
              by_cases happ : (vf inputs).getD inputs = []
              · exact hst.2.2.1 happ
              · exact hst.2.2.2.2.2 happ (by simp [Variation.intent])
                  (by simp [Variation.intent])
            subst hmid
            exact ih bmid h1 h2 s2 bfin evs2 hrec
      | function name vh vf =>
        simp only [run_variations, Variation.apply, Backend.set_function] at heq
        rcases hrv : run_variation compute
            { b with function := dictUpdate b.function ((vf b.function).getD b.function) }
            inputs (some (.function name vh vf)) with ⟨res1, bmid, evs1⟩
        rw [hrv] at heq
        cases res1 with
        | error e => simp at heq
        | ok s1 =>
          simp only [List.nil_append, List.singleton_append] at heq
          rcases hrec : run_variations compute inputs bmid rest
            with ⟨res2, bfin, evs2⟩
          rw [hrec] at heq
          cases res2 with
          | error e => simp at heq
          | ok s2 =>
            simp only [Prod.mk.injEq, Except.ok.injEq] at heq
            obtain ⟨-, hb, -⟩ := heq
            subst hb
            have hrv2 : run_variation_aux compute (some (.function name vh vf))
                inputs.length
                { b with function := dictUpdate b.function ((vf b.function).getD b.function) }
                0 inputs = (.ok s1, bmid, evs1) := hrv
            have hst := run_variation_aux_state compute (some (.function name vh vf))
              inputs.length inputs
              { b with function := dictUpdate b.function ((vf b.function).getD b.function) }
              0 (by omega) s1 bmid evs1 hrv2
            have hc4 := hst.2.2.2.1 hne (by simp [Variation.intent])
            have hb1 : bmid.base_environment = b.base_environment := hst.1
            have hb2 : bmid.base_function = b.base_function := hst.2.1
            have hcl1 : bmid.environment = bmid.base_environment :=
              (hc4.2.trans h1).trans hb1.symm
            have hcl2 : bmid.function = bmid.base_function := hc4.1.trans hb2.symm
            have hfin := ih bmid hcl1 hcl2 s2 bfin evs2 hrec
            exact ⟨hfin.1.trans hb1, hfin.2.1.trans hb2, hfin.2.2.1, hfin.2.2.2⟩
      | environment name vh vf =>
        simp only [run_variations, Variation.apply, Backend.set_environment] at heq
        rcases hrv : run_variation compute
            { b with environment :=
                dictUpdate b.environment ((vf b.environment).getD b.environment) }
            inputs (some (.environment name vh vf)) with ⟨res1, bmid, evs1⟩
        rw [hrv] at heq
        cases res1 with
        | error e => simp at heq
        | ok s1 =>
          simp only [List.nil_append, List.singleton_append] at heq
          rcases hrec : run_variations compute inputs bmid rest
            with ⟨res2, bfin, evs2⟩
          rw [hrec] at heq
          cases res2 with
          | error e => simp at heq
          | ok s2 =>
            simp only [Prod.mk.injEq, Except.ok.injEq] at heq
            obtain ⟨-, hb, -⟩ := heq
            subst hb
            have hrv2 : run_variation_aux compute (some (.environment name vh vf))
                inputs.length
                { b with environment :=
                    dictUpdate b.environment ((vf b.environment).getD b.environment) }
                0 inputs = (.ok s1, bmid, evs1) := hrv
            have hst := run_variation_aux_state compute
              (some (.environment name vh vf)) inputs.length inputs
              { b with environment :=
                  dictUpdate b.environment ((vf b.environment).getD b.environment) }
              0 (by omega) s1 bmid evs1 hrv2
            have hc5 := hst.2.2.2.2.1 hne (by simp [Variation.intent])
            have hb1 : bmid.base_environment = b.base_environment := hst.1
            have hb2 : bmid.base_function = b.base_function := hst.2.1
            have hcl1 : bmid.environment = bmid.base_environment :=
              hc5.1.trans hb1.symm
            have hcl2 : bmid.function = bmid.base_function :=
              (hc5.2.trans h2).trans hb2.symm
            have hfin := ih bmid hcl1 hcl2 s2 bfin evs2 hrec
            exact ⟨hfin.1.trans hb1, hfin.2.1.trans hb2, hfin.2.2.1, hfin.2.2.2⟩

/-- C1 counterexample: over an empty inputs list with one FUNCTION-intent
variation and no checks, `Engine.run` completes (returns a report), yet the
final current function configuration differs from the base function
configuration: `variation.apply` mutated it and the per-input cleanup never
ran because the batch was empty. -/
theorem engine_run_cleanup_counterexample :
    (Engine.run wComputeOk wBackendClean ([] : List (Input Nat Nat))
        [some wVarFn] ([] : List (CheckSpec Nat Nat Nat Unit))).1 =
      .ok [] ∧
    (Engine.run wComputeOk wBackendClean ([] : List (Input Nat Nat))
        [some wVarFn] ([] : List (CheckSpec Nat Nat Nat Unit))).2.1.function =
      [("f", 1)] ∧
    (Engine.run wComputeOk wBackendClean ([] : List (Input Nat Nat))
        [some wVarFn] ([] : List (CheckSpec Nat Nat Nat Unit))).2.1.base_function =
      [("f", 0)] ∧
    (Engine.run wComputeOk wBackendClean ([] : List (Input Nat Nat))
        [some wVarFn] ([] : List (CheckSpec Nat Nat Nat Unit))).2.1.function ≠
      (Engine.run wComputeOk wBackendClean ([] : List (Input Nat Nat))
        [some wVarFn] ([] : List (CheckSpec Nat Nat Nat Unit))).2.1.base_function := by
  refine ⟨rfl, rfl, rfl, ?_⟩
  intro h
  rw [show (Engine.run wComputeOk wBackendClean ([] : List (Input Nat Nat))
        [some wVarFn] ([] : List (CheckSpec Nat Nat Nat Unit))).2.1.function =
      [("f", 1)] from rfl,
    show (Engine.run wComputeOk wBackendClean ([] : List (Input Nat Nat))
        [some wVarFn] ([] : List (CheckSpec Nat Nat Nat Unit))).2.1.base_function =
      [("f", 0)] from rfl] at h
  simp at h

/-- C1 (amended): for every run of `Engine.run` that completes, over a
backend whose current configuration starts at its base configuration (as the
constructor guarantees) and a NON-EMPTY inputs list, the final current
environment equals the base environment and the final current function
configuration equals the base function configuration; both base
configurations are unchanged. (The non-emptiness proviso is forced by the
counterexample: a FUNCTION- or ENVIRONMENT-intent variation over an empty
batch is applied but never cleaned up.) -/
theorem engine_run_restores_base_configuration (Inp Out Val Err Ann : Type)
    (compute : Inp → Config Val → Except Err (Option Out)) (b : Backend Val)
    (inputs : List (Input Inp Out))
    (variations : List (Option (Variation Inp Out Val)))
    (checks : List (CheckSpec Inp Out Val Ann))
    (henv : b.environment = b.base_environment)
    (hfn : b.function = b.base_function) (hne : inputs ≠ [])
    (report : List (CheckResult Ann)) (b2 : Backend Val)
    (evs : List (BEvent Val Inp Out Err))
    (hrun : Engine.run compute b inputs variations checks = (.ok report, b2, evs)) :
    b2.environment = b2.base_environment ∧ b2.function = b2.base_function ∧
    b2.base_environment = b.base_environment ∧
    b2.base_function = b.base_function := by
  rcases hbr : build_references compute b inputs with ⟨res1, b1, evs1⟩
  simp only [Engine.run] at hrun
  rw [hbr] at hrun
  cases res1 with
  | error e => simp at hrun
  | ok refs =>
    simp only [] at hrun
    rcases hrv : run_variations compute inputs b1 variations
      with ⟨res2, bmid, evs2⟩
    rw [hrv] at hrun
    cases res2 with
    | error e => simp at hrun
    | ok allSlices =>
      simp only [] at hrun
      have hstate := build_references_aux_state compute inputs b []
      rw [show build_references_aux compute b [] inputs =
        (Except.ok refs, b1, evs1) from hbr] at hstate
      simp only at hstate
      have hcl := hstate.2.2 henv hfn
      have hvc := run_variations_clean compute inputs hne variations b1
        hcl.1 hcl.2 allSlices bmid evs2 hrv
      cases hrc : run_checks refs allSlices checks with
      | error e => rw [hrc] at hrun; simp at hrun
      | ok rep =>
        rw [hrc] at hrun
        simp only [Prod.mk.injEq, Except.ok.injEq] at hrun
        obtain ⟨-, hb, -⟩ := hrun
        subst hb
        exact ⟨hvc.2.2.1, hvc.2.2.2, hvc.1.trans hstate.1,
          hvc.2.1.trans hstate.2.1⟩

/-- Witness for the amended C1 at a concrete non-empty run with a
FUNCTION-intent variation. -/
theorem engine_run_restores_base_configuration_witness :
    ∃ (report : List (CheckResult Unit)) (b2 : Backend Nat)
      (evs : List (BEvent Nat Nat Nat String)),
      Engine.run wComputeOk wBackendClean [wInput "a" 5] [some wVarFn]
          ([] : List (CheckSpec Nat Nat Nat Unit)) = (.ok report, b2, evs) ∧
      b2.environment = b2.base_environment ∧ b2.function = b2.base_function := by
  refine ⟨_, _, _, rfl, ?_, ?_⟩
  · exact (engine_run_restores_base_configuration Nat Nat Nat String Unit
      wComputeOk wBackendClean [wInput "a" 5] [some wVarFn] [] rfl rfl
      (by simp) _ _ _ rfl).1
  · exact (engine_run_restores_base_configuration Nat Nat Nat String Unit
      wComputeOk wBackendClean [wInput "a" 5] [some wVarFn] [] rfl rfl
      (by simp) _ _ _ rfl).2.1

theorem run_variation_aux_trace {Val Inp Out Err : Type}
    (compute : Inp → Config Val → Except Err (Option Out))
    (variation : Option (Variation Inp Out Val)) (total : Nat) :
    ∀ (inputs : List (Input Inp Out)) (b : Backend Val) (idx : Nat),
      idx + inputs.length = total →
      ∀ (slices : List (Slice Inp Out Val)) (b2 : Backend Val)
        (evs : List (BEvent Val Inp Out Err)),
        run_variation_aux compute variation total b idx inputs =
          (.ok slices, b2, evs) →
        runCalls evs = (List.enumFrom idx inputs).map (fun p =>
          (p.2.data,
           decide (p.1 = total - 1) &&
             decide (variation.map Variation.intent = some VIntent.environment),
           decide (p.1 = total - 1) &&
             decide (variation.map Variation.intent = some VIntent.function))) ∧
        computeCalls evs = inputs.map (fun i => (i.data, b.function)) := by
  intro inputs
  induction inputs with
  | nil =>
    intro b idx hidx slices b2 evs heq
    simp only [run_variation_aux, Prod.mk.injEq, Except.ok.injEq] at heq
    obtain ⟨-, -, hevs⟩ := heq
    subst hevs
    simp [runCalls, computeCalls, List.enumFrom]
  | cons input rest ih =>
    intro b idx hidx slices b2 evs heq
    rcases hc : compute input.data b.function with e | out
    · exfalso
      simp [run_variation_aux, Backend.run, hc] at heq
    · by_cases hrest : rest = []
      · subst hrest
        have hidx2 : idx = total - 1 := by simp at hidx; omega
        have hd : decide (idx = total - 1) = true := by simp [hidx2]
        simp only [run_variation_aux, Backend.run, hc, hd, Bool.true_and,
          show ((false : Bool) = true) = False from by simp,
          show ((true : Bool) = true) = True from by simp, if_true, if_false,
          Prod.mk.injEq, Except.ok.injEq] at heq
        obtain ⟨-, -, hevs⟩ := heq
        subst hevs
        cases hbe : decide
            (variation.map Variation.intent = some VIntent.environment) <;>
          simp [runCalls, computeCalls, List.filterMap_append, hbe, hd,
            List.enumFrom, List.filterMap]
      · have hne2 : ¬ (idx = total - 1) := by
          have h1 : 1 ≤ rest.length := by
            cases rest with
            | nil => exact absurd rfl hrest
            | cons a t => simp
          simp only [List.length_cons] at hidx
          omega
        have hd : decide (idx = total - 1) = false := by simp [hne2]
        simp only [run_variation_aux, Backend.run, hc, hd, Bool.false_and,
          if_false, show ((false : Bool) = true) = False from by simp] at heq
        rcases hrec : run_variation_aux compute variation total b (idx + 1) rest
          with ⟨res2, b2x, evs2⟩
        rw [hrec] at heq
        cases res2 with
        | error e => simp at heq
        | ok slices2 =>
          simp only [Prod.mk.injEq, Except.ok.injEq] at heq
          obtain ⟨-, -, hevs⟩ := heq
          subst hevs
          have hih := ih b (idx + 1) (by simp at hidx; omega) slices2 b2x evs2 hrec
          constructor
          · simp only [runCalls, List.filterMap_append] at hih ⊢
            rw [hih.1]
            simp [List.enumFrom, List.filterMap, hd]
          · simp only [computeCalls, List.filterMap_append] at hih ⊢
            rw [hih.2]
            simp [List.filterMap]

/-- C2: during a variation pass, the i-th `backend.run` call receives
`cleanup_fn` true exactly when i is the batch's last index AND the variation's
intent is FUNCTION, and `cleanup_env` true exactly when i is last AND the
intent is ENVIRONMENT (recorded per call in the trace); consequently, for a
FUNCTION-intent variation applied to the backend, every `compute` call of the
batch receives the mutated (merged) function configuration, and immediately
after the last input the current function configuration equals the base
configuration, the environment untouched. -/
theorem run_variation_cleanup_flags_and_function_batch (Inp Out Val Err : Type)
    (compute : Inp → Config Val → Except Err (Option Out))
    (inputs : List (Input Inp Out)) :
    (∀ (b : Backend Val) (variation : Option (Variation Inp Out Val))
        (slices : List (Slice Inp Out Val)) (b2 : Backend Val)
        (evs : List (BEvent Val Inp Out Err)),
      run_variation compute b inputs variation = (.ok slices, b2, evs) →
      runCalls evs = inputs.enum.map (fun p =>
        (p.2.data,
         decide (p.1 = inputs.length - 1) &&
           decide (variation.map Variation.intent = some VIntent.environment),
         decide (p.1 = inputs.length - 1) &&
           decide (variation.map Variation.intent = some VIntent.function))) ∧
      computeCalls evs = inputs.map (fun i => (i.data, b.function))) ∧
    (∀ (b0 : Backend Val) (name : String) (vh : Int)
        (vf : Config Val → Option (Config Val))
        (slices : List (Slice Inp Out Val)) (b2 : Backend Val)
        (evs : List (BEvent Val Inp Out Err)),
      run_variation compute
          (@Variation.apply Inp Out Val Err (.function name vh vf) inputs b0).2.1
          inputs (some (.function name vh vf)) = (.ok slices, b2, evs) →
      computeCalls evs = inputs.map (fun i =>
        (i.data, dictUpdate b0.function ((vf b0.function).getD b0.function))) ∧
      (inputs ≠ [] → b2.function = b0.base_function ∧
        b2.environment = b0.environment)) := by
  constructor
  · intro b variation slices b2 evs hrun
    have hrun2 : run_variation_aux compute variation inputs.length b 0 inputs =
        (.ok slices, b2, evs) := hrun
    exact run_variation_aux_trace compute variation inputs.length inputs b 0
      (by omega) slices b2 evs hrun2
  · intro b0 name vh vf slices b2 evs hrun
    have hrun2 : run_variation_aux compute (some (.function name vh vf))
        inputs.length
        { b0 with function := dictUpdate b0.function ((vf b0.function).getD b0.function) }
        0 inputs = (.ok slices, b2, evs) := hrun
    have htr := run_variation_aux_trace compute (some (.function name vh vf))
      inputs.length inputs
      { b0 with function := dictUpdate b0.function ((vf b0.function).getD b0.function) }
      0 (by omega) slices b2 evs hrun2
    have hst := run_variation_aux_state compute (some (.function name vh vf))
      inputs.length inputs
      { b0 with function := dictUpdate b0.function ((vf b0.function).getD b0.function) }
      0 (by omega) slices b2 evs hrun2
    exact ⟨htr.2, fun hne => hst.2.2.2.1 hne (by simp [Variation.intent])⟩

/-- Witness for C2: batch of 3 inputs under a FUNCTION-intent variation. -/
theorem run_variation_cleanup_flags_witness :
    ∃ (slices : List (Slice Nat Nat Nat)) (b2 : Backend Nat)
      (evs : List (BEvent Nat Nat Nat String)),
      run_variation wComputeOk
          (@Variation.apply Nat Nat Nat String
            (.function "SetFn" 0 (fun _ => some [("f", 1)]))
            [wInput "a" 1, wInput "b" 2, wInput "c" 3] wBackendClean).2.1
          [wInput "a" 1, wInput "b" 2, wInput "c" 3]
          (some (.function "SetFn" 0 (fun _ => some [("f", 1)]))) =
        (.ok slices, b2, evs) ∧
      computeCalls evs = [wInput "a" 1, wInput "b" 2, wInput "c" 3].map (fun i =>
        (i.data, dictUpdate wBackendClean.function
          (((fun _ => some [("f", 1)] : Config Nat → Option (Config Nat))
            wBackendClean.function).getD wBackendClean.function))) ∧
      b2.function = wBackendClean.base_function ∧
      b2.environment =
        (@Variation.apply Nat Nat Nat String
          (.function "SetFn" 0 (fun _ => some [("f", 1)]))
          [wInput "a" 1, wInput "b" 2, wInput "c" 3] wBackendClean).2.1.environment := by
  refine ⟨_, _, _, rfl, ?_, ?_, ?_⟩
  · exact ((run_variation_cleanup_flags_and_function_batch Nat Nat Nat String
      wComputeOk [wInput "a" 1, wInput "b" 2, wInput "c" 3]).2 wBackendClean
      "SetFn" 0 (fun _ => some [("f", 1)]) _ _ _ rfl).1
  · exact (((run_variation_cleanup_flags_and_function_batch Nat Nat Nat String
      wComputeOk [wInput "a" 1, wInput "b" 2, wInput "c" 3]).2 wBackendClean
      "SetFn" 0 (fun _ => some [("f", 1)]) _ _ _ rfl).2 (by simp)).1
  · exact (((run_variation_cleanup_flags_and_function_batch Nat Nat Nat String
      wComputeOk [wInput "a" 1, wInput "b" 2, wInput "c" 3]).2 wBackendClean
      "SetFn" 0 (fun _ => some [("f", 1)]) _ _ _ rfl).2 (by simp)).2

/-! ### Reference-map lemmas -/

theorem buildRefSlice_slice_input {Val Inp Out Err : Type}
    (compute : Inp → Config Val → Except Err (Option Out)) (b : Backend Val)
    (input : Input Inp Out) (s : Slice Inp Out Val) (b2 : Backend Val)
    (evs : List (BEvent Val Inp Out Err))
    (h : buildRefSlice compute b input = (.ok s, b2, evs)) : s.input = input := by
  rcases href : input.reference.getD none with _ | v
  · rcases hc : compute input.data b.function with e | out
    · simp [buildRefSlice, Backend.run, href, hc] at h
    · simp [buildRefSlice, Backend.run, href, hc] at h
      rw [← h.1]
  · simp [buildRefSlice, href] at h
    rw [← h.1]

theorem build_references_aux_lookup {Val Inp Out Err : Type}
    (compute : Inp → Config Val → Except Err (Option Out)) :
    ∀ (inputs : List (Input Inp Out)) (b : Backend Val)
      (acc : List (String × Slice Inp Out Val)),
      (∀ k s, lookupKey acc k = some s → s.input_id = k) →
      ∀ (refs : List (String × Slice Inp Out Val)) (b1 : Backend Val)
        (evs1 : List (BEvent Val Inp Out Err)),
        build_references_aux compute b acc inputs = (.ok refs, b1, evs1) →
        (∀ k s, lookupKey refs k = some s → s.input_id = k) ∧
        (∀ k, (lookupKey refs k).isSome ↔
          ((lookupKey acc k).isSome ∨ k ∈ inputs.map Input.id)) := by
  intro inputs
  induction inputs with
  | nil =>
    intro b acc hacc refs b1 evs1 heq
    simp only [build_references_aux, Prod.mk.injEq, Except.ok.injEq] at heq
    obtain ⟨hr, -, -⟩ := heq
    subst hr
    exact ⟨hacc, fun k => by simp⟩
  | cons input rest ih =>
    intro b acc hacc refs b1 evs1 heq
    rcases hb : buildRefSlice compute b input with ⟨res1, bmid, evsa⟩
    rw [build_references_aux, hb] at heq
    cases res1 with
    | error e => simp at heq
    | ok slice =>
      simp only [] at heq
      rcases hrec : build_references_aux compute bmid (setKey acc input.id slice) rest
        with ⟨res2, bfin, evsb⟩
      rw [hrec] at heq
      cases res2 with
      | error e => simp at heq
      | ok refs2 =>
        simp only [Prod.mk.injEq, Except.ok.injEq] at heq
        obtain ⟨hr, -, -⟩ := heq
        subst hr
        have hslice : slice.input = input := buildRefSlice_slice_input _ _ _ _ _ _ hb
        have hacc2 : ∀ k s, lookupKey (setKey acc input.id slice) k = some s →
            s.input_id = k := by
          intro k s hl
          rw [lookup_setKey] at hl
          by_cases hk : k = input.id
          · rw [if_pos hk] at hl
            cases hl
            rw [hk, Slice.input_id, hslice]
          · rw [if_neg hk] at hl
            exact hacc k s hl
        have hi := ih bmid (setKey acc input.id slice) hacc2 refs2 bfin evsb hrec
        refine ⟨hi.1, fun k => ?_⟩
        rw [hi.2 k, lookup_setKey]
        by_cases hk : k = input.id
        · simp [hk]
        · have hk2 : ¬ input.id = k := fun h => hk h.symm
          simp [hk, hk2]

theorem lookup_references_ok {Inp Out Val Err : Type}
    (refsMap : List (String × Slice Inp Out Val))
    (hinv : ∀ k s, lookupKey refsMap k = some s → s.input_id = k) :
    ∀ (slices : List (Slice Inp Out Val)),
      (∀ s ∈ slices, (lookupKey refsMap s.input_id).isSome) →
      ∃ refs, @lookup_references Inp Out Val Err refsMap slices = .ok refs ∧
        refs.length = slices.length ∧
        (∀ p ∈ slices.zip refs, p.1.input_id = p.2.input_id) := by
  intro slices
  induction slices with
  | nil => exact fun _ => ⟨[], rfl, rfl, by simp⟩
  | cons s rest ih =>
    intro hall
    have hs := hall s (List.mem_cons_self _ _)
    rcases hl : lookupKey refsMap s.input_id with _ | r
    · rw [hl] at hs; simp at hs
    · obtain ⟨refs, h1, h2, h3⟩ := ih (fun x hx => hall x (List.mem_cons_of_mem _ hx))
      refine ⟨r :: refs, ?_, by simp [h2], ?_⟩
      · rw [lookup_references, hl, h1]
      · intro p hp
        rcases List.mem_cons.mp (by simpa using hp) with hp1 | hp1
        · rw [hp1]
          exact (hinv s.input_id r hl).symm
        · exact h3 p hp1

theorem lookup_references_err {Inp Out Val Err : Type}
    (refsMap : List (String × Slice Inp Out Val)) :
    ∀ (slices : List (Slice Inp Out Val)),
      (∃ s ∈ slices, lookupKey refsMap s.input_id = none) →
      ∃ k, @lookup_references Inp Out Val Err refsMap slices =
          .error (.key_error k) ∧ lookupKey refsMap k = none := by
  intro slices
  induction slices with
  | nil => rintro ⟨s, hs, -⟩; simp at hs
  | cons s rest ih =>
    rintro ⟨x, hx, hnone⟩
    rcases hl : lookupKey refsMap s.input_id with _ | r
    · exact ⟨s.input_id, by rw [lookup_references, hl], hl⟩
    · have hxr : x ∈ rest := by
        rcases List.mem_cons.mp hx with rfl | hxr
        · rw [hl] at hnone; cases hnone
        · exact hxr
      obtain ⟨k, hk1, hk2⟩ := ih ⟨x, hxr, hnone⟩
      exact ⟨k, by rw [lookup_references, hl, hk1], hk2⟩

/-- C9: the Engine builds the references list for a REFERENCE-intent check by
indexing the reference map with each accumulated slice's input id, in slice
order. Whenever every accumulated slice's input id is among the original
inputs' ids, this lookup succeeds, yields exactly one reference per slice
(equal lengths) with every positional pair sharing its input id — so
`ReferenceCheck.evaluate`'s count-mismatch and alignment branches are
unreachable and evaluation succeeds; while a slice whose input id is not
among the original ids makes the check phase raise the key-lookup error
before `check.evaluate` is invoked (for every check function alike). -/
theorem engine_reference_alignment_safety (Inp Out Val Err Ann : Type)
    (compute : Inp → Config Val → Except Err (Option Out)) (b : Backend Val)
    (inputs : List (Input Inp Out))
    (refsMap : List (String × Slice Inp Out Val)) (b1 : Backend Val)
    (evs1 : List (BEvent Val Inp Out Err))
    (hbr : build_references compute b inputs = (.ok refsMap, b1, evs1))
    (all_slices : List (Slice Inp Out Val)) :
    ((∀ s ∈ all_slices, s.input_id ∈ inputs.map Input.id) →
      ∃ refs, @lookup_references Inp Out Val Err refsMap all_slices = .ok refs ∧
        refs.length = all_slices.length ∧
        (∀ p ∈ all_slices.zip refs, p.1.input_id = p.2.input_id) ∧
        (all_slices ≠ [] →
          ∀ c : Slice Inp Out Val → Slice Inp Out Val → Severity × Ann,
            ∃ out, reference_evaluate c all_slices refs = .ok out)) ∧
    ((∃ s ∈ all_slices, s.input_id ∉ inputs.map Input.id) →
      ∀ (name : String) (c : Slice Inp Out Val → Slice Inp Out Val → Severity × Ann),
        ∃ k, k ∉ inputs.map Input.id ∧
          @run_checks Inp Out Val Err Ann refsMap all_slices
            [.reference name c] = .error (.key_error k)) := by
  have hbr2 : build_references_aux compute b [] inputs =
      (.ok refsMap, b1, evs1) := hbr
  have hlk := build_references_aux_lookup compute inputs b []
    (by intro k s h; simp [lookupKey] at h) refsMap b1 evs1 hbr2
  have hinv := hlk.1
  have hiff : ∀ k, (lookupKey refsMap k).isSome ↔ k ∈ inputs.map Input.id := by
    intro k
    rw [hlk.2 k]
    simp [lookupKey]
  constructor
  · intro hall
    have hall2 : ∀ s ∈ all_slices, (lookupKey refsMap s.input_id).isSome :=
      fun s hs => (hiff s.input_id).mpr (hall s hs)
    obtain ⟨refs, h1, h2, h3⟩ := lookup_references_ok refsMap hinv all_slices hall2
    refine ⟨refs, h1, h2, h3, ?_⟩
    intro hne c
    cases all_slices with
    | nil => exact absurd rfl hne
    | cons s rest =>
      have hpairs := reference_pairs_aligned c ((s :: rest).zip refs) h3
      have hev : reference_evaluate c (s :: rest) refs = .ok
          (Severity.merge (((s :: rest).zip refs).map fun p => (c p.1 p.2).1),
           ((s :: rest).zip refs).foldl
             (fun acc p => setKey acc p.1.id ((c p.1 p.2).1.label, (c p.1 p.2).2))
             []) := by
        simp [reference_evaluate, h2, hpairs, List.map_map, List.foldl_map]
        rfl
      exact ⟨_, hev⟩
  · intro hex name c
    have hnone : ∃ s ∈ all_slices, lookupKey refsMap s.input_id = none := by
      obtain ⟨s, hs, hid⟩ := hex
      refine ⟨s, hs, ?_⟩
      rcases hcase : lookupKey refsMap s.input_id with _ | r
      · rfl
      · exfalso
        apply hid
        apply (hiff s.input_id).mp
        rw [hcase]
        rfl
    obtain ⟨k, hk1, hk2⟩ := lookup_references_err refsMap all_slices hnone
    refine ⟨k, ?_, ?_⟩
    · intro hkmem
      have hsome := (hiff k).mpr hkmem
      rw [hk2] at hsome
      simp at hsome
    · simp [run_checks, CheckSpec.intent]
      rw [hk1]

/-- Witness for C9: one input with id `a`; a matching slice aligns, a slice
with unknown id `q` raises the key error. -/
theorem engine_reference_alignment_safety_witness :
    ∃ (refsMap : List (String × Slice Nat Nat Nat)) (b1 : Backend Nat)
      (evs1 : List (BEvent Nat Nat Nat String)),
      build_references wComputeOk wBackendClean [wInput "a" 5] =
        (.ok refsMap, b1, evs1) ∧
      (∃ refs, @lookup_references Nat Nat Nat String refsMap [wSlice "a" 7] =
          .ok refs ∧ refs.length = 1) ∧
      (∃ k, k ∉ [wInput "a" 5].map Input.id ∧
        @run_checks Nat Nat Nat String Unit refsMap [wSlice "q" 7]
          [.reference "chk" (fun _ _ => (Severity.pass, ()))] =
            .error (.key_error k)) := by
  refine ⟨_, _, _, rfl, ?_, ?_⟩
  · obtain ⟨refs, h1, h2, -⟩ :=
      (engine_reference_alignment_safety Nat Nat Nat String Unit wComputeOk
        wBackendClean [wInput "a" 5] _ _ _ rfl [wSlice "a" 7]).1
        (by simp [wSlice, wInput, Slice.input_id])
    exact ⟨refs, h1, by simpa using h2⟩
  · exact (engine_reference_alignment_safety Nat Nat Nat String Unit wComputeOk
      wBackendClean [wInput "a" 5] _ _ _ rfl [wSlice "q" 7]).2
      (by simp [wSlice, wInput, Slice.input_id]) "chk"
      (fun _ _ => (Severity.pass, ()))
